import Mathlib

/-!
# Verification of the negotiation-pilot MCTS search system

This file gives a shallow embedding of the negotiation search system:

* the streaming client hook `src/frontend/lib/hooks/use-mcts-websocket.ts`
  (node snapshots, event schema, `updateNode`, `handleMessage`, and the
  outbound messages the hook sends on `/ws/mcts`);
* the `/negotiate` request bodies built by
  `src/frontend/app/chat/[id]/chat-content.tsx` and
  `src/frontend/app/api/chat/route.ts`;
* the backend search engine (Search Tree, Tree Search Controller, Event
  Publisher, Search Session Manager).  The backend's Python sources are not
  part of the repository snapshot (only `src/backend/README.md` is), so these
  components are modelled from the specification's own words; every such
  definition carries a doc comment starting with `Modelled from the spec:`.

JavaScript / Python numbers are embedded as `Rat`; machine floating point is
not modelled (no claim here depends on rounding).  All definitions are
executable.
-/

/-! ## Node status (shared by the client schema and the engine model)

From `use-mcts-websocket.ts` line 12:
`status: 'exploring' | 'evaluating' | 'complete'`. -/

inductive NodeStatus where
| exploring
| evaluating
| complete
deriving DecidableEq, Repr

/-! ## Client-side node snapshot and event schema

From `src/frontend/lib/hooks/use-mcts-websocket.ts`, lines 5-32.  TypeScript
optional fields (`?`) and `| null` types become `Option`; `number` becomes
`Rat` (or `Nat` for the integer-valued counters `visits`, `depth`,
`total_nodes`, `max_depth`). -/

structure MCTSNode where
  node_id : String
  parent_id : Option String
  state : String
  visits : Nat
  value : Rat
  action_taken : Option String
  status : NodeStatus
  evaluation_score : Option Rat
  depth : Nat
  children_ids : List String
deriving DecidableEq, Repr

inductive EventType where
| node_update
| selection
| expansion
| evaluation
| backprop
| complete
| error
deriving DecidableEq, Repr

structure EventMetadata where
  options : Option (List String)
  scores : Option (List Rat)
  message : Option String
  best_action : Option String
  best_value : Option Rat
deriving DecidableEq, Repr

structure MCTSEvent where
  event_type : EventType
  node : Option MCTSNode
  nodes : Option (List MCTSNode)
  metadata : Option EventMetadata
  total_nodes : Nat
  max_depth : Nat
  state_evaluation : Option Rat
deriving DecidableEq, Repr

structure AnalysisResult where
  score : Rat
  text : String
deriving DecidableEq, Repr

/-! ## The client node map and `updateNode`

From `use-mcts-websocket.ts` lines 79-109.  The hook keeps
`nodeMapRef : Map<string, MCTSNode>`; a JavaScript `Map` preserves insertion
order and `set` on an existing key updates in place, which an association
list models exactly. -/

abbrev NodeMap := List (String × MCTSNode)

def NodeMap.find (m : NodeMap) (k : String) : Option MCTSNode :=
  (List.find? (fun p => p.1 = k) m).map Prod.snd

/-- `Map.set`: replace in place if the key is present, else append. -/
def NodeMap.set (m : NodeMap) (k : String) (v : MCTSNode) : NodeMap :=
  if (List.find? (fun p => p.1 = k) m).isSome then
    List.map (fun p => if p.1 = k then (k, v) else p) m
  else m ++ [(k, v)]

/-- `[...new Set(xs)]`: deduplicate keeping first occurrences. -/
def dedupKeepFirst (xs : List String) : List String := xs.dedup

/-- `updateNode` from `use-mcts-websocket.ts` lines 79-109: merge the incoming
snapshot's `children_ids` with the existing ones, preserve a previously seen
`evaluation_score` when the update carries `null` (the `??` chain on line 93),
then add the node to its parent's `children_ids` when the parent is present. -/
def updateNode (m : NodeMap) (node : MCTSNode) : NodeMap :=
  let existing := m.find node.node_id
  let mergedChildrenIds :=
    dedupKeepFirst ((existing.map MCTSNode.children_ids).getD [] ++ node.children_ids)
  let stored : MCTSNode :=
    { node with
      children_ids := mergedChildrenIds
      evaluation_score :=
        (node.evaluation_score.orElse fun _ => existing.bind MCTSNode.evaluation_score) }
  let m1 := m.set node.node_id stored
  match node.parent_id with
  | none => m1
  | some pid =>
    match m1.find pid with
    | none => m1
    | some parent =>
      m1.set pid
        { parent with
          children_ids := dedupKeepFirst (parent.children_ids ++ [node.node_id]) }

/-! ## `handleMessage`

From `use-mcts-websocket.ts` lines 112-149.  The hook state it touches:
`stats` (`totalNodes`, `maxDepth`), `error`, the node map, and
`analysisResults`. -/

structure HookState where
  nodeMap : NodeMap
  totalNodes : Nat
  maxDepth : Nat
  errorMsg : Option String
  analysisResults : List AnalysisResult

/-- The depth comparison `(a.depth || 0) - (b.depth || 0)` used to sort a
`nodes` batch (line 132); `Array.prototype.sort` is stable, as is
`List.insertionSort`. -/
def depthLe (a b : MCTSNode) : Prop := a.depth ≤ b.depth

instance : DecidableRel depthLe := fun a b => inferInstanceAs (Decidable (a.depth ≤ b.depth))

/-- Fallback score `data.metadata?.scores?.[i] || 1 - (i * 0.1)` (line 145);
`||` takes the fallback when `scores[i]` is missing or `0` (falsy). -/
def analysisScore (scores : Option (List Rat)) (i : Nat) : Rat :=
  match (scores.getD []).get? i with
  | some s => if s = 0 then 1 - i * (1 / 10) else s
  | none => 1 - i * (1 / 10)

/-- `handleMessage` from `use-mcts-websocket.ts` lines 112-149: always record
`total_nodes`/`max_depth` in `stats`; on `error` events set the error and
return; otherwise fold a non-empty `nodes` batch (sorted by depth) or a single
`node` through `updateNode`; on `complete` events with `metadata.options`
produce the analysis results. -/
def handleMessage (st : HookState) (data : MCTSEvent) : HookState :=
  let st := { st with totalNodes := data.total_nodes, maxDepth := data.max_depth }
  if data.event_type = .error then
    { st with errorMsg := some ((data.metadata.bind EventMetadata.message).getD "Unknown error") }
  else
    let st :=
      match data.nodes with
      | some (n :: rest) =>
        { st with
          nodeMap := (List.insertionSort depthLe (n :: rest)).foldl updateNode st.nodeMap }
      | _ =>
        match data.node with
        | some n => { st with nodeMap := updateNode st.nodeMap n }
        | none => st
    match data.event_type, data.metadata.bind EventMetadata.options with
    | .complete, some opts =>
      { st with
        analysisResults :=
          opts.enum.map fun p =>
            { text := p.2, score := analysisScore (data.metadata.bind EventMetadata.scores) p.1 } }
    | _, _ => st

/-! ## Outbound messages on `/ws/mcts`

From `use-mcts-websocket.ts`: on `ws.onopen` (lines 176-183) the hook sends
`{goal, messages, current_turn: messages.length}` from `lastMessageRef`; on a
goal/messages change while connected (lines 227-233) it sends the same shape
from the new props.  The older copy of the hook (`src/unnamed/part_007`,
lines 66-71 and 146-150) builds the identical payload. -/

structure ClientMessage where
  goal : String
  messages : List String
  current_turn : Nat
deriving DecidableEq, Repr

def mkClientMessage (goal : String) (messages : List String) : ClientMessage :=
  { goal := goal, messages := messages, current_turn := messages.length }

/-- The part of the hook's mutable state that governs sending:
`lastMessageRef` and whether the socket is open. -/
structure HookConn where
  lastGoal : String
  lastMessages : List String
  connected : Bool
deriving DecidableEq, Repr

inductive HookEvent where
| propsChange (goal : String) (messages : List String)
| socketOpen
| socketClosed
deriving DecidableEq, Repr

/-- One step of the hook's send behaviour.  `socketOpen` (`ws.onopen`) sends
the initial message from `lastMessageRef`; `propsChange` (the
`useEffect([goal, messages])` body) stores the new props in `lastMessageRef`
and sends only when the socket is open. -/
def hookStep (s : HookConn) : HookEvent → HookConn × List ClientMessage
  | .socketOpen => ({ s with connected := true }, [mkClientMessage s.lastGoal s.lastMessages])
  | .socketClosed => ({ s with connected := false }, [])
  | .propsChange g msgs =>
    let s' : HookConn := { s with lastGoal := g, lastMessages := msgs }
    if s.connected then (s', [mkClientMessage g msgs]) else (s', [])

/-- All messages sent while running a list of hook events. -/
def hookRun (s : HookConn) : List HookEvent → List ClientMessage
  | [] => []
  | e :: rest =>
    let (s', out) := hookStep s e
    out ++ hookRun s' rest

/-! ## `/negotiate` request bodies

The synchronous endpoint has two callers in the repository:

* `src/frontend/app/chat/[id]/chat-content.tsx` lines 243-250 sends
  `{goal, messages: [...prior, userMsg, bossResponse]}`;
* `src/frontend/app/api/chat/route.ts` lines 74-81 forwards the incoming
  `body`, which was destructured as `{messages, id, goal}` (line 50), i.e. a
  goal and a messages list (`src/unnamed/part_005` lines 106-122 likewise
  sends `{goal, messages}` only).

Neither caller ever includes `max_turns` or `current_turn`, so those fields
are `Option` and the builders set them to `none`. -/

structure NegotiateRequest where
  goal : Option String
  messages : List String
  max_turns : Option Nat
  current_turn : Option Nat
deriving DecidableEq, Repr

/-- Request built by `handleSendMessage` (`chat-content.tsx` lines 243-250):
`{goal: goal, messages: [...messages.map(m => m.content), newMessage.content,
bossData.options[0]]}`. -/
def negotiateBodyFromChat (goal : String) (prior : List String)
    (userMsg bossMsg : String) : NegotiateRequest :=
  { goal := some goal
    messages := prior ++ [userMsg, bossMsg]
    max_turns := none
    current_turn := none }

/-- Request forwarded by the `PUT /api/chat` route (`route.ts` lines 74-81):
`body: JSON.stringify(body)` where `body` carries `goal` and `messages`. -/
def negotiateBodyFromRoute (goal : Option String) (messages : List String) :
    NegotiateRequest :=
  { goal := goal, messages := messages, max_turns := none, current_turn := none }

/-- The request shape claim C9 asserts: all four of `goal`, `messages`,
`max_turns`, `current_turn` present on every request. -/
def carriesAllFourFields (r : NegotiateRequest) : Prop :=
  r.goal.isSome ∧ r.max_turns.isSome ∧ r.current_turn.isSome

instance (r : NegotiateRequest) : Decidable (carriesAllFourFields r) :=
  inferInstanceAs (Decidable (_ ∧ _ ∧ _))

/-! ## The backend search engine, modelled from the spec

The backend Python sources (FastAPI server, MCTS controller, tree, session
manager) are not in the repository snapshot — only `src/backend/README.md` is.
Everything below is therefore modelled from the specification's own words
(§3 data model, §4.1 Search Tree, §4.3 Tree Search Controller, §4.4 Search
Session Manager, §5 ordering guarantee, §7 error handling). -/

/-- Modelled from the spec: the failure taxonomy of the Language Oracle
Client (§4.2, §7): `OracleUnavailable` (transport/timeout) and
`OracleMalformed` (unparseable response). -/
inductive OracleError where
| unavailable
| malformed
deriving DecidableEq, Repr

/-- Modelled from the spec: the Language Oracle Client (§4.2), after its
bounded retry policy has run: `generate_actions` yields candidate utterances
or fails, `evaluate_state` yields a scalar or fails.  A conversation state is
the ordered utterance list (§3); the goal is fixed per session and is folded
into `evaluate`. -/
structure Oracle where
  generate : List String → Except OracleError (List String)
  evaluate : List String → Except OracleError Rat

/-- Modelled from the spec: the clamp policy of §4.2 — any out-of-range
numeric score is mapped into [0,1] rather than failing. -/
def clamp01 (x : Rat) : Rat := max 0 (min 1 x)

/-- Modelled from the spec: the neutral fallback score of §4.3 step 3 — the
midpoint of the valid range [0,1]. -/
def fallbackMid : Rat := 1 / 2

/-- Modelled from the spec: the score an evaluation step assigns — the
clamped oracle value on success, the neutral midpoint on oracle failure. -/
def evalScore (oracle : Oracle) (state : List String) : Rat :=
  match oracle.evaluate state with
  | .ok v => clamp01 v
  | .error _ => fallbackMid

/-- Modelled from the spec: one search-tree vertex (§3 Node), with the fields
`node_id`, `parent_id`, `state`, `action_taken`, `depth`, `visit_count`,
`cumulative_value`, `children_ids`, `status`, `evaluation_score`.  The tree is
an arena (§9): nodes are referenced by `node_id`, assigned sequentially at
creation and never reused, so a node's id equals its index in the arena. -/
structure ENode where
  node_id : Nat
  parent_id : Option Nat
  state : List String
  action_taken : String
  depth : Nat
  visit_count : Nat
  cumulative_value : Rat
  children_ids : List Nat
  status : NodeStatus
  evaluation_score : Option Rat
deriving DecidableEq, Repr

/-- Modelled from the spec: `mean_value = cumulative_value / visit_count` when
`visit_count > 0` (§3); `Rat` division by zero yields `0`, giving unvisited
nodes a mean of `0`. -/
def meanValue (n : ENode) : Rat := n.cumulative_value / (n.visit_count : Rat)

/-- Modelled from the spec: the event kinds of the ordering guarantee (§5):
`expansion`, `evaluation (status=evaluating)`, `evaluation (status=complete)`,
`backprop`.  Each event concerns one node; only the (kind, node) projection is
modelled here, since the temporal claims are about that projection (the full
Event Publisher payload is the client schema `MCTSEvent` above). -/
inductive EvKind where
| expansion
| evalStart
| evalDone
| backprop
deriving DecidableEq, Repr

structure TraceEv where
  kind : EvKind
  node_id : Nat
deriving DecidableEq, Repr

/-- Modelled from the spec: the engine state for one Search Session — the
arena of nodes, the ordered event trace emitted so far (oldest first), and the
count of simulation iterations executed. -/
structure EngineState where
  tree : List ENode
  trace : List TraceEv
  iters : Nat

/-- Modelled from the spec: `create_root(state)` (§4.1) — the root has id 0,
no parent, depth 0, `status = exploring`, no score. -/
def rootNode (state : List String) : ENode :=
  { node_id := 0, parent_id := none, state := state, action_taken := ""
    depth := 0, visit_count := 0, cumulative_value := 0, children_ids := []
    status := .exploring, evaluation_score := none }

def initEngine (state : List String) : EngineState :=
  { tree := [rootNode state], trace := [], iters := 0 }

/-- Update the node with the given id in the arena. -/
def mapById (t : List ENode) (v : Nat) (f : ENode → ENode) : List ENode :=
  t.map fun n => if n.node_id = v then f n else n

/-- Modelled from the spec: a child created by the expansion step (§4.3
step 2) — `status = exploring`, `visit_count = 0`, depth one more than the
parent, state extended by the action utterance. -/
def mkChild (nid : Nat) (parent : ENode) (action : String) : ENode :=
  { node_id := nid, parent_id := some parent.node_id
    state := parent.state ++ [action], action_taken := action
    depth := parent.depth + 1, visit_count := 0, cumulative_value := 0
    children_ids := [], status := .exploring, evaluation_score := none }

/-- Record a new child id in a parent's ordered `children_ids`. -/
def linkChild (nid : Nat) (q : ENode) : ENode :=
  { q with children_ids := q.children_ids ++ [nid] }

/-- Modelled from the spec: `add_child(parent_id, action, state)` (§4.1) in
the arena — append the child and record it in the parent's `children_ids`.
The id of the new child is the arena size. -/
def addChildE (t : List ENode) (pid : Nat) (action : String) : List ENode × Nat :=
  match t[pid]? with
  | none => (t, 0)
  | some p =>
    let nid := t.length
    (mapById t pid (linkChild nid) ++ [mkChild nid p action], nid)

/-- Modelled from the spec: the expansion step (§4.3 step 2) — create one
child per candidate utterance and emit an `expansion` event per created
child.  Returns the ids of the new children in creation order. -/
def expandAll (s : EngineState) (pid : Nat) : List String → EngineState × List Nat
  | [] => (s, [])
  | a :: rest =>
    let (t', cid) := addChildE s.tree pid a
    let s' : EngineState :=
      { s with tree := t', trace := s.trace ++ [⟨.expansion, cid⟩] }
    let (s'', more) := expandAll s' pid rest
    (s'', cid :: more)

/-- Modelled from the spec: one backpropagation update (§4.3 step 4) —
increment `visit_count` and add the score to `cumulative_value`. -/
def bpUpdate (score : Rat) (n : ENode) : ENode :=
  { n with visit_count := n.visit_count + 1, cumulative_value := n.cumulative_value + score }

/-- Modelled from the spec: backpropagation (§4.3 step 4) — from the
evaluated node up the `parent_id` links to the root, updating every node on
the chain and emitting a `backprop` event per touched node.  The fuel
argument bounds the chain length (the caller passes `depth + 1`). -/
def backstep : Nat → EngineState → Nat → Rat → EngineState
  | 0, s, _, _ => s
  | fuel + 1, s, nid, score =>
    match s.tree[nid]? with
    | none => s
    | some n =>
      let s' : EngineState :=
        { s with
          tree := mapById s.tree nid (bpUpdate score)
          trace := s.trace ++ [⟨.backprop, nid⟩] }
      match n.parent_id with
      | none => s'
      | some pid => backstep fuel s' pid score

/-- Mark a node evaluated: `status = complete`, `evaluation_score` set. -/
def completeWith (score : Rat) (m : ENode) : ENode :=
  { m with status := .complete, evaluation_score := some score }

/-- Modelled from the spec: the evaluation step (§4.3 step 3) for node `nid` —
transition to `evaluating` and emit that transition, call `evaluate_state`,
set `evaluation_score` and `status = complete` (using the neutral fallback on
oracle failure) and emit the completion, then backpropagate the score. -/
def evalAndBp (oracle : Oracle) (s : EngineState) (nid : Nat) : EngineState :=
  match s.tree[nid]? with
  | none => s
  | some n =>
    let score := evalScore oracle n.state
    let s2 : EngineState :=
      { s with
        tree := mapById s.tree nid (completeWith score)
        trace := s.trace ++ [⟨.evalStart, nid⟩, ⟨.evalDone, nid⟩] }
    backstep (n.depth + 1) s2 nid score

/-- Modelled from the spec: the configured branching factor and maximum
search depth (§4.3). -/
structure SearchConfig where
  branching : Nat
  maxDepth : Nat

/-- Modelled from the spec: generate up to the remaining branching budget of
candidate utterances; an oracle failure during expansion omits the candidates
rather than failing the search (§7). -/
def genActions (oracle : Oracle) (cfg : SearchConfig) (n : ENode) : List String :=
  (match oracle.generate n.state with
   | .ok l => l
   | .error _ => []).take (cfg.branching - n.children_ids.length)

/-- Modelled from the spec: one simulation iteration of the Tree Search
Controller (§4.3), with the selection policy abstracted as `sel` (§4.3
step 1's UCB walk; its numeric details are not the subject of any claim —
what matters is that it returns an existing node all of whose proper
ancestors are `complete`, which the UCB walk guarantees because it only
descends past fully-expanded `complete` nodes):

* if the selected node is not yet `complete` (a revisited unevaluated node),
  evaluate it and backpropagate;
* else if it is below the depth/branching limits, expand it, then evaluate
  the first newly created child and backpropagate;
* else backpropagate its existing score again. -/
def stepCore (cfg : SearchConfig) (oracle : Oracle)
    (sel : EngineState → Nat) (s : EngineState) : EngineState :=
  let nid := sel s
  match s.tree[nid]? with
  | none => s
  | some n =>
    if n.status = .complete then
      if n.depth < cfg.maxDepth ∧ n.children_ids.length < cfg.branching then
        let (s1, newIds) := expandAll s nid (genActions oracle cfg n)
        match newIds with
        | c :: _ => evalAndBp oracle s1 c
        | [] => s1
      else
        backstep (n.depth + 1) s nid (n.evaluation_score.getD fallbackMid)
    else
      evalAndBp oracle s nid

def runStep (cfg : SearchConfig) (oracle : Oracle)
    (sel : EngineState → Nat) (s : EngineState) : EngineState :=
  let s' := stepCore cfg oracle sel s
  { s' with iters := s.iters + 1 }

/-- Modelled from the spec: run the simulation loop for a fixed iteration
budget (§4.3 Termination: "iterate until … a fixed simulation budget is
exhausted"). -/
def runSearch (cfg : SearchConfig) (oracle : Oracle)
    (sel : EngineState → Nat) : Nat → EngineState → EngineState
  | 0, s => s
  | budget + 1, s => runSearch cfg oracle sel budget (runStep cfg oracle sel s)

/-! ## Result extraction, modelled from the spec

§4.3 Termination: "rank the root's children by `mean_value` descending (ties
broken by higher `visit_count`, then by insertion order) and emit `complete`
carrying the ranked `action_taken` strings as `options`, the best child's
`mean_value` as `state_evaluation`, and the best child's action as
`best_action`." -/

/-- Modelled from the spec: the ranking order on root children paired with
their insertion index: higher `mean_value` first, ties broken by higher
`visit_count`, remaining ties by insertion order.  The index makes the order
total and antisymmetric, so sorting by it realizes the spec's tie-breaking
exactly. -/
def rankRel (a b : Nat × ENode) : Prop :=
  meanValue b.2 < meanValue a.2 ∨
    (meanValue a.2 = meanValue b.2 ∧
      (b.2.visit_count < a.2.visit_count ∨
        (a.2.visit_count = b.2.visit_count ∧ a.1 ≤ b.1)))

instance : DecidableRel rankRel := fun _ _ =>
  inferInstanceAs (Decidable (_ ∨ _ ∧ (_ ∨ _ ∧ _)))

/-- Modelled from the spec: rank a list of root children (in insertion
order) by `rankRel`. -/
def rankChildren (cs : List ENode) : List ENode :=
  (List.insertionSort rankRel cs.enum).map Prod.snd

/-- The payload of the `complete` event (§6): `best_action`, the ranked
`options`, and `state_evaluation`. -/
structure CompletePayload where
  best_action : String
  options : List String
  state_evaluation : Rat
deriving DecidableEq, Repr

/-- Modelled from the spec: build the `complete` event payload from the
root's children on termination (§4.3); `none` when the root has no children
yet. -/
def completeOf (cs : List ENode) : Option CompletePayload :=
  match rankChildren cs with
  | [] => none
  | b :: rest =>
    some
      { best_action := b.action_taken
        options := (b :: rest).map ENode.action_taken
        state_evaluation := meanValue b }

/-- The root's children, in insertion order, read off the arena. -/
def rootChildren (s : EngineState) : List ENode :=
  match s.tree[0]? with
  | none => []
  | some r => r.children_ids.filterMap fun c => s.tree[c]?

/-! ## The Search Session Manager, modelled from the spec

§4.4: `submit(channel, goal, messages, current_turn)` validates that
`messages` is a prefix-extension of the session's previously submitted
messages; if not (goal changed, or messages diverge), discard the existing
tree and start a fresh root instead of reusing stale search state.  §3: a
session binds one tree to the original request. -/

/-- `old` is a prefix of `new` (the new conversation extends the old one). -/
def prefixExt : List String → List String → Bool
  | [], _ => true
  | _ :: _, [] => false
  | a :: as, b :: bs => a == b && prefixExt as bs

/-- Modelled from the spec: one Search Session (§3) — the bound goal,
submitted messages, current turn, and the session's engine state. -/
structure Session where
  goal : String
  messages : List String
  current_turn : Nat
  engine : EngineState

/-- Modelled from the spec: the state a fresh root is created at — the
submitted conversation (§2 data flow: a tree "rooted at that conversation
state"). -/
def freshEngine (messages : List String) : EngineState := initEngine messages

/-- Modelled from the spec: `submit` (§4.4).  Same goal and a
prefix-extension of the previous messages keep the tree (progress is
preserved); a changed goal or diverging messages discard it and start a
fresh root. -/
def submit (s : Session) (goal : String) (messages : List String)
    (turn : Nat) : Session :=
  if goal = s.goal ∧ prefixExt s.messages messages then
    { s with messages := messages, current_turn := turn }
  else
    { goal := goal, messages := messages, current_turn := turn
      engine := freshEngine messages }

/-- `statistics()` (§4.1): the derived total node count. -/
def totalNodesOf (e : EngineState) : Nat := e.tree.length

/-! ## Helper lemmas -/

theorem prefixExt_refl (l : List String) : prefixExt l l = true := by
  induction l with
  | nil => rfl
  | cons a as ih => simp [prefixExt, ih]

theorem hookStep_msg (s : HookConn) (e : HookEvent) (msg : ClientMessage)
    (h : msg ∈ (hookStep s e).2) : msg.current_turn = msg.messages.length := by
  cases e with
  | socketOpen =>
    simp only [hookStep, List.mem_singleton] at h
    subst h; rfl
  | socketClosed => simp [hookStep] at h
  | propsChange g msgs =>
    simp only [hookStep] at h
    by_cases hc : s.connected = true
    · simp only [hc, if_pos] at h
      simp only [List.mem_singleton] at h
      subst h; rfl
    · simp [hc] at h

theorem hookRun_msg (evs : List HookEvent) (s : HookConn) (msg : ClientMessage)
    (h : msg ∈ hookRun s evs) : msg.current_turn = msg.messages.length := by
  induction evs generalizing s with
  | nil => simp [hookRun] at h
  | cons e rest ih =>
    simp only [hookRun, List.mem_append] at h
    rcases h with h | h
    · exact hookStep_msg s e msg h
    · exact ih _ h

/-! ## Claim C10 -/

/-- C10: in every inbound message the streaming client sends on the
`/ws/mcts` channel — the initial message sent on `ws.onopen` and every
subsequent update sent on a goal/messages change — the `current_turn` field
equals the length of the `messages` array sent in that same message. -/
theorem claim_C10_current_turn_is_length
    (s : HookConn) (evs : List HookEvent) (msg : ClientMessage)
    (h : msg ∈ hookRun s evs) : msg.current_turn = msg.messages.length :=
  hookRun_msg evs s msg h

theorem claim_C10_witness :
    (mkClientMessage "extend deadline" ["Hi"]).current_turn =
      (mkClientMessage "extend deadline" ["Hi"]).messages.length :=
  claim_C10_current_turn_is_length
    { lastGoal := "extend deadline", lastMessages := ["Hi"], connected := false }
    [HookEvent.socketOpen] (mkClientMessage "extend deadline" ["Hi"]) (by decide)

/-! ## Claim C9 -/

/-- C9 as stated is false of the code: both `/negotiate` callers in the
repository build request bodies containing only `goal` and `messages`; this
concrete request from `handleSendMessage` carries neither `max_turns` nor
`current_turn`. -/
theorem claim_C9_counterexample :
    ¬ carriesAllFourFields
        (negotiateBodyFromChat "extend deadline by 2 weeks" []
          "Hi, can we talk about the deadline?" "Sure, tell me more.") := by
  intro h
  exact absurd h.2.1 (by decide)

/-- C9 (amended): every synchronous `POST /negotiate` request built by the
repository's two callers carries `goal` and the accumulated `messages`, and
always omits both `max_turns` and `current_turn`. -/
theorem claim_C9_request_fields (goal : String) (prior : List String)
    (userMsg bossMsg : String) (g2 : Option String) (msgs2 : List String) :
    (negotiateBodyFromChat goal prior userMsg bossMsg).goal = some goal ∧
    (negotiateBodyFromChat goal prior userMsg bossMsg).messages =
      prior ++ [userMsg, bossMsg] ∧
    (negotiateBodyFromChat goal prior userMsg bossMsg).max_turns = none ∧
    (negotiateBodyFromChat goal prior userMsg bossMsg).current_turn = none ∧
    (negotiateBodyFromRoute g2 msgs2).goal = g2 ∧
    (negotiateBodyFromRoute g2 msgs2).messages = msgs2 ∧
    (negotiateBodyFromRoute g2 msgs2).max_turns = none ∧
    (negotiateBodyFromRoute g2 msgs2).current_turn = none :=
  ⟨rfl, rfl, rfl, rfl, rfl, rfl, rfl, rfl⟩

/-! ## Claim C5 -/

/-- C5: whenever a submission's goal differs from the session's previous
goal, or its messages are not a prefix-extension of the previously submitted
messages, the existing search tree is discarded and a fresh root is created,
so `total_nodes = 1` before the next simulation iteration runs. -/
theorem claim_C5_reset_law (s : Session) (goal : String)
    (messages : List String) (turn : Nat)
    (h : goal ≠ s.goal ∨ prefixExt s.messages messages = false) :
    (submit s goal messages turn).engine = freshEngine messages ∧
    totalNodesOf (submit s goal messages turn).engine = 1 := by
  have hcond : ¬(goal = s.goal ∧ prefixExt s.messages messages = true) := by
    rcases h with h | h
    · exact fun hc => h hc.1
    · exact fun hc => by rw [h] at hc; exact absurd hc.2 (by decide)
  constructor
  · simp [submit, hcond]
  · simp [submit, hcond, totalNodesOf, freshEngine, initEngine]

theorem claim_C5_witness :
    ("other goal" ≠ ("extend deadline" : String) ∨
        prefixExt ["Hi"] ["Hi", "more"] = false) ∧
      ((submit { goal := "extend deadline", messages := ["Hi"], current_turn := 1
                 engine := initEngine ["Hi"] }
          "other goal" ["Hi", "more"] 2).engine = freshEngine ["Hi", "more"] ∧
        totalNodesOf
          (submit { goal := "extend deadline", messages := ["Hi"], current_turn := 1
                    engine := initEngine ["Hi"] }
            "other goal" ["Hi", "more"] 2).engine = 1) :=
  ⟨Or.inl (by decide),
    claim_C5_reset_law
      { goal := "extend deadline", messages := ["Hi"], current_turn := 1
        engine := initEngine ["Hi"] }
      "other goal" ["Hi", "more"] 2 (Or.inl (by decide))⟩

/-! ## Claim C6 -/

/-- C6: submitting the same `(goal, messages, current_turn)` twice on a
session, with no intervening change, does not reset the search tree — the
second submission leaves the whole session (nodes, visit counts, values)
exactly as the first left it. -/
theorem claim_C6_idempotent (s : Session) (goal : String)
    (messages : List String) (turn : Nat) :
    submit (submit s goal messages turn) goal messages turn =
      submit s goal messages turn := by
  have hflat : ∀ t : Session, t.messages = messages → t.current_turn = turn →
      t.goal = goal → submit t goal messages turn = t := by
    intro t hm ht hg
    have hcond : goal = t.goal ∧ prefixExt t.messages messages = true :=
      ⟨hg.symm, by rw [hm]; exact prefixExt_refl messages⟩
    simp only [submit, if_pos hcond]
    cases t
    simp_all
  by_cases hc : goal = s.goal ∧ prefixExt s.messages messages = true
  · exact hflat _ (by simp [submit, hc]) (by simp [submit, hc]) (by simp [submit, hc])
  · exact hflat _ (by simp [submit, hc]) (by simp [submit, hc]) (by simp [submit, hc])

/-! ## Claim C3 -/

/-- The event kinds C3 calls "expansion, evaluation, and backprop". -/
def nodeBearing (t : EventType) : Prop :=
  t = .expansion ∨ t = .evaluation ∨ t = .backprop

/-- The property claim C3 asserts of an outbound event: node-bearing events
carry a `node`, and `complete` events carry `best_action`, `options` and
`state_evaluation`.  (The schema has no top-level `best_action`/`options`
fields at all; the only place they can appear is the optional `metadata`
object, so the predicate reads them from there — a strictly weaker reading
than the claim's "top-level", which the counterexample below still
violates.) -/
def claimC3Event (e : MCTSEvent) : Prop :=
  (nodeBearing e.event_type → e.node.isSome) ∧
  (e.event_type = .complete →
    e.state_evaluation.isSome ∧
    (e.metadata.bind EventMetadata.options).isSome ∧
    (e.metadata.bind EventMetadata.best_action).isSome)

/-- A `complete` event that is well-typed against the hook's `MCTSEvent`
interface while carrying no payload beyond the mandatory
`total_nodes`/`max_depth`. -/
def completeEventBare : MCTSEvent :=
  { event_type := .complete, node := none, nodes := none, metadata := none
    total_nodes := 1, max_depth := 0, state_evaluation := none }

/-- An `expansion` event with no `node` field, also well-typed against the
interface (`node?` is optional; the handler's batch path expects `nodes`
instead). -/
def expansionEventBare : MCTSEvent :=
  { event_type := .expansion, node := none, nodes := none, metadata := none
    total_nodes := 2, max_depth := 1, state_evaluation := none }

/-- The hook's initial state: empty node map, zero stats, no error
(`useState` initializers, `use-mcts-websocket.ts` lines 60-64). -/
def initialHookState : HookState :=
  { nodeMap := [], totalNodes := 0, maxDepth := 0, errorMsg := none
    analysisResults := [] }

/-- C3 as stated is false of the schema in
`src/frontend/lib/hooks/use-mcts-websocket.ts`: a `complete` event need not
carry `best_action`, `options` or `state_evaluation` (and an `expansion`
event need not carry `node`). -/
theorem claim_C3_counterexample : ¬ claimC3Event completeEventBare := by
  intro h
  have := (h.2 rfl).1
  simp [completeEventBare] at this

/-- C3 (amended): every outbound event carries top-level `total_nodes` and
`max_depth` (mandatory in the schema, and recorded by `handleMessage` on
every event), and a NodeSnapshot has exactly the ten fields `node_id`,
`parent_id`, `state`, `visits`, `value`, `action_taken`, `status`,
`evaluation_score`, `depth`, `children_ids`; but the `node` field of
expansion/evaluation/backprop events is optional (an event may carry a
`nodes` batch, or neither), and on `complete` events `best_action` and
`options` sit inside the optional `metadata` object while `state_evaluation`
is an optional top-level field — the client accepts such payload-less events
without error. -/
theorem claim_C3_event_schema :
    (∀ (st : HookState) (e : MCTSEvent),
      (handleMessage st e).totalNodes = e.total_nodes ∧
      (handleMessage st e).maxDepth = e.max_depth) ∧
    (∀ n : MCTSNode,
      n = MCTSNode.mk n.node_id n.parent_id n.state n.visits n.value
            n.action_taken n.status n.evaluation_score n.depth n.children_ids) ∧
    expansionEventBare.event_type = .expansion ∧
    expansionEventBare.node = none ∧
    completeEventBare.event_type = .complete ∧
    completeEventBare.metadata = none ∧
    (handleMessage initialHookState completeEventBare).errorMsg = none ∧
    (handleMessage initialHookState expansionEventBare).errorMsg = none := by
  refine ⟨?_, fun n => rfl, rfl, rfl, rfl, rfl, rfl, rfl⟩
  intro st e
  unfold handleMessage
  repeat' split <;> try exact ⟨rfl, rfl⟩

/-! ## Claim C1: ranking of root children on termination -/

theorem rankRel_total_pair (a b : Nat × ENode) : rankRel a b ∨ rankRel b a := by
  unfold rankRel
  rcases lt_trichotomy (meanValue a.2) (meanValue b.2) with h | h | h
  · exact Or.inr (Or.inl h)
  · rcases lt_trichotomy a.2.visit_count b.2.visit_count with h2 | h2 | h2
    · exact Or.inr (Or.inr ⟨h.symm, Or.inl h2⟩)
    · rcases Nat.le_total a.1 b.1 with h3 | h3
      · exact Or.inl (Or.inr ⟨h, Or.inr ⟨h2, h3⟩⟩)
      · exact Or.inr (Or.inr ⟨h.symm, Or.inr ⟨h2.symm, h3⟩⟩)
    · exact Or.inl (Or.inr ⟨h, Or.inl h2⟩)
  · exact Or.inl (Or.inl h)

theorem rankRel_trans_pair (a b c : Nat × ENode)
    (hab : rankRel a b) (hbc : rankRel b c) : rankRel a c := by
  unfold rankRel at *
  rcases hab with h1 | ⟨e1, hv1⟩ <;> rcases hbc with h2 | ⟨e2, hv2⟩
  · exact Or.inl (lt_trans h2 h1)
  · exact Or.inl (by rw [← e2]; exact h1)
  · exact Or.inl (by rw [e1]; exact h2)
  · refine Or.inr ⟨e1.trans e2, ?_⟩
    rcases hv1 with g1 | ⟨f1, i1⟩ <;> rcases hv2 with g2 | ⟨f2, i2⟩
    · exact Or.inl (lt_trans g2 g1)
    · exact Or.inl (by omega)
    · exact Or.inl (by omega)
    · exact Or.inr ⟨f1.trans f2, le_trans i1 i2⟩

instance : IsTotal (Nat × ENode) rankRel := ⟨rankRel_total_pair⟩

instance : IsTrans (Nat × ENode) rankRel := ⟨rankRel_trans_pair⟩

/-- The index-free projection of `rankRel`: descending `mean_value`, ties by
descending `visit_count`. -/
def rankedGe (a b : ENode) : Prop :=
  meanValue b < meanValue a ∨ (meanValue a = meanValue b ∧ b.visit_count ≤ a.visit_count)

theorem rankChildren_perm (cs : List ENode) : (rankChildren cs).Perm cs := by
  have h := (List.perm_insertionSort rankRel cs.enum).map Prod.snd
  rw [List.enum_map_snd] at h
  exact h

theorem rankChildren_sorted (cs : List ENode) :
    List.Sorted rankedGe (rankChildren cs) := by
  unfold rankChildren
  refine List.Pairwise.map Prod.snd ?_ (List.sorted_insertionSort rankRel cs.enum)
  intro a b hab
  rcases hab with h | ⟨e, hv⟩
  · exact Or.inl h
  · rcases hv with h | ⟨e2, _⟩
    · exact Or.inr ⟨e, le_of_lt h⟩
    · exact Or.inr ⟨e, le_of_eq e2.symm⟩

/-- C1: for every terminating search, the `complete` payload built from the
root's children reports exactly as many `options` as root children, the
`options` being the children's `action_taken` strings ranked by descending
`mean_value` with ties broken by higher `visit_count` and then insertion
order (the `rankRel` sort over insertion-indexed children), and
`state_evaluation` equal to the top-ranked child's `mean_value`, which is the
maximum mean among all children. -/
theorem claim_C1_complete_event (cs : List ENode) (h : cs ≠ []) :
    ∃ pay, completeOf cs = some pay ∧
      pay.options = (rankChildren cs).map ENode.action_taken ∧
      pay.options.length = cs.length ∧
      (rankChildren cs).Perm cs ∧
      List.Sorted rankedGe (rankChildren cs) ∧
      List.Sorted rankRel (List.insertionSort rankRel cs.enum) ∧
      ∃ best rest, rankChildren cs = best :: rest ∧
        pay.best_action = best.action_taken ∧
        pay.state_evaluation = meanValue best ∧
        ∀ c ∈ cs, meanValue c ≤ meanValue best := by
  have hperm := rankChildren_perm cs
  have hne : rankChildren cs ≠ [] := by
    intro hnil
    exact h (hnil ▸ hperm).symm.eq_nil
  rcases hr : rankChildren cs with _ | ⟨best, rest⟩
  · exact absurd hr hne
  refine ⟨{ best_action := best.action_taken
            options := (best :: rest).map ENode.action_taken
            state_evaluation := meanValue best }, ?_, ?_, ?_, hr ▸ hperm, ?_, ?_, ?_⟩
  · simp only [completeOf, hr]
  · rfl
  · rw [List.length_map, ← hr, hperm.length_eq]
  · exact hr ▸ rankChildren_sorted cs
  · exact List.sorted_insertionSort rankRel cs.enum
  · refine ⟨best, rest, rfl, rfl, rfl, ?_⟩
    intro c hc
    have hc' : c ∈ rankChildren cs := hperm.symm.subset hc
    rw [hr] at hc'
    rcases List.mem_cons.mp hc' with rfl | hc'
    · exact le_refl _
    · have hs := rankChildren_sorted cs
      rw [hr] at hs
      have hrel : rankedGe best c := (List.pairwise_cons.mp hs).1 c hc'
      rcases hrel with hlt | ⟨heq, _⟩
      · exact le_of_lt hlt
      · exact le_of_eq heq.symm

/-- Two concrete root children for the C1 witness: distinct means. -/
def exChildA : ENode :=
  { node_id := 1, parent_id := some 0, state := ["Hi", "a"], action_taken := "a"
    depth := 1, visit_count := 2, cumulative_value := 1, children_ids := []
    status := .complete, evaluation_score := some (1 / 2) }

def exChildB : ENode :=
  { node_id := 2, parent_id := some 0, state := ["Hi", "b"], action_taken := "b"
    depth := 1, visit_count := 1, cumulative_value := 1, children_ids := []
    status := .complete, evaluation_score := some 1 }

theorem claim_C1_witness :
    ∃ pay, completeOf [exChildA, exChildB] = some pay ∧
      pay.options = (rankChildren [exChildA, exChildB]).map ENode.action_taken ∧
      pay.options.length = [exChildA, exChildB].length ∧
      (rankChildren [exChildA, exChildB]).Perm [exChildA, exChildB] ∧
      List.Sorted rankedGe (rankChildren [exChildA, exChildB]) ∧
      List.Sorted rankRel (List.insertionSort rankRel [exChildA, exChildB].enum) ∧
      ∃ best rest, rankChildren [exChildA, exChildB] = best :: rest ∧
        pay.best_action = best.action_taken ∧
        pay.state_evaluation = meanValue best ∧
        ∀ c ∈ [exChildA, exChildB], meanValue c ≤ meanValue best :=
  claim_C1_complete_event [exChildA, exChildB] (List.cons_ne_nil _ _)

/-! ## Trace reasoning infrastructure for the temporal claims -/

/-- The kinds of the events concerning node `v`, in delivery order. -/
def evsFor (v : Nat) (t : List TraceEv) : List EvKind :=
  (t.filter fun e => e.node_id == v).map TraceEv.kind

theorem evsFor_append (v : Nat) (t u : List TraceEv) :
    evsFor v (t ++ u) = evsFor v t ++ evsFor v u := by
  unfold evsFor
  rw [List.filter_append, List.map_append]

theorem mem_evsFor {v : Nat} {t : List TraceEv} {k : EvKind} :
    k ∈ evsFor v t ↔ (⟨k, v⟩ : TraceEv) ∈ t := by
  unfold evsFor
  constructor
  · intro h
    obtain ⟨e, he, hk⟩ := List.mem_map.mp h
    obtain ⟨he', hv⟩ := List.mem_filter.mp he
    have hv' : e.node_id = v := by simpa using hv
    have : e = ⟨k, v⟩ := by
      cases e
      simp_all
    exact this ▸ he'
  · intro h
    exact List.mem_map.mpr ⟨⟨k, v⟩, List.mem_filter.mpr ⟨h, by simp⟩, rfl⟩

theorem evsFor_eq_nil_of_forall {v : Nat} {t : List TraceEv}
    (h : ∀ e ∈ t, e.node_id ≠ v) : evsFor v t = [] := by
  unfold evsFor
  rw [List.filter_eq_nil_iff.mpr fun e he => by simpa using h e he]
  rfl

def expPart : Bool → List EvKind
  | true => [.expansion]
  | false => []

def evalPart : Bool → List EvKind
  | true => [.evalStart, .evalDone]
  | false => []

/-- The legal per-node event sequence of the spec's ordering guarantee (§5):
an optional `expansion`, then an optional `evaluation (status=evaluating)` /
`evaluation (status=complete)` pair, then any number of `backprop` events —
with backpropagation only after completion. -/
def NodeShape (l : List EvKind) : Prop :=
  ∃ (e v : Bool) (m : Nat),
    l = expPart e ++ evalPart v ++ List.replicate m .backprop ∧ (0 < m → v = true)

theorem NodeShape.nil : NodeShape [] := ⟨false, false, 0, rfl, by omega⟩

theorem NodeShape.single_exp : NodeShape [.expansion] := ⟨true, false, 0, rfl, by omega⟩

theorem evalDone_not_mem_expPart (e : Bool) : EvKind.evalDone ∉ expPart e := by
  cases e <;> simp [expPart]

theorem evalDone_not_mem_replicate (m : Nat) :
    EvKind.evalDone ∉ List.replicate m EvKind.backprop := by
  intro h
  have := List.eq_of_mem_replicate h
  exact absurd this (by decide)

theorem NodeShape.evalDone_mem {l : List EvKind} (h : NodeShape l)
    (hd : EvKind.evalDone ∈ l) :
    ∃ (e : Bool) (m : Nat),
      l = expPart e ++ evalPart true ++ List.replicate m .backprop := by
  obtain ⟨e, v, m, hl, _⟩ := h
  cases v with
  | true => exact ⟨e, m, hl⟩
  | false =>
    rw [hl] at hd
    rcases List.mem_append.mp hd with hd | hd
    · rcases List.mem_append.mp hd with hd | hd
      · exact absurd hd (evalDone_not_mem_expPart e)
      · simp [evalPart] at hd
    · exact absurd hd (evalDone_not_mem_replicate m)

theorem NodeShape.append_eval {l : List EvKind} (h : NodeShape l)
    (hnd : EvKind.evalDone ∉ l) :
    NodeShape (l ++ [.evalStart, .evalDone]) := by
  obtain ⟨e, v, m, hl, hm⟩ := h
  cases v with
  | true =>
    exfalso
    apply hnd
    rw [hl]
    exact List.mem_append.mpr (Or.inl (List.mem_append.mpr (Or.inr (by simp [evalPart]))))
  | false =>
    have hm0 : m = 0 := by
      by_contra hne
      exact absurd (hm (Nat.pos_of_ne_zero hne)) (by decide)
    subst hm0
    refine ⟨e, true, 0, ?_, by omega⟩
    rw [hl]
    simp [evalPart]

theorem NodeShape.append_bp {l : List EvKind} (h : NodeShape l)
    (hd : EvKind.evalDone ∈ l) :
    NodeShape (l ++ [.backprop]) := by
  obtain ⟨e, m, hl⟩ := h.evalDone_mem hd
  refine ⟨e, true, m + 1, ?_, fun _ => rfl⟩
  rw [hl, List.replicate_succ']
  simp

/-- `a` occurs before every occurrence of `b` in the trace `t`. -/
def precedes (a b : TraceEv) (t : List TraceEv) : Prop :=
  ∀ t1 t2, t = t1 ++ b :: t2 → a ∈ t1

theorem precedes_of_not_mem {a b : TraceEv} {t : List TraceEv} (h : b ∉ t) :
    precedes a b t := by
  intro t1 t2 ht
  exact absurd (ht ▸ List.mem_append.mpr (Or.inr (List.mem_cons_self b t2))) h

theorem precedes_append_not_mem {a b : TraceEv} {t u : List TraceEv}
    (h : precedes a b t) (hb : b ∉ u) : precedes a b (t ++ u) := by
  intro t1 t2 ht
  rcases List.append_eq_append_iff.mp ht with ⟨w, hw1, hw2⟩ | ⟨w, hw1, hw2⟩
  · exfalso
    apply hb
    rw [hw2]
    exact List.mem_append.mpr (Or.inr (List.mem_cons_self b t2))
  · cases w with
    | nil =>
      exfalso
      apply hb
      rw [List.nil_append] at hw2
      rw [← hw2]
      exact List.mem_cons_self b t2
    | cons x w' =>
      rw [List.cons_append] at hw2
      injection hw2 with hx ht2
      exact h t1 w' (by rw [hw1, hx])

theorem precedes_append_mem_left {a b : TraceEv} {t u : List TraceEv}
    (ha : a ∈ t) (hb : b ∉ t) : precedes a b (t ++ u) := by
  intro t1 t2 ht
  rcases List.append_eq_append_iff.mp ht with ⟨w, hw1, hw2⟩ | ⟨w, hw1, hw2⟩
  · rw [hw1]
    exact List.mem_append.mpr (Or.inl ha)
  · cases w with
    | nil =>
      rw [List.append_nil] at hw1
      rw [← hw1]
      exact ha
    | cons x w' =>
      exfalso
      apply hb
      rw [List.cons_append] at hw2
      injection hw2 with hx ht2
      rw [hw1, ← hx]
      exact List.mem_append.mpr (Or.inr (List.mem_cons_self _ _))

/-! ## Status order, backpropagation preconditions, arena lemmas -/

def statusRank : NodeStatus → Nat
  | .exploring => 0
  | .evaluating => 1
  | .complete => 2

/-- The monotone order on node statuses:
`exploring ≤ evaluating ≤ complete`. -/
def statusLe (a b : NodeStatus) : Prop := statusRank a ≤ statusRank b

theorem statusLe_refl (a : NodeStatus) : statusLe a a := le_refl _

theorem statusLe_trans {a b c : NodeStatus} (h1 : statusLe a b) (h2 : statusLe b c) :
    statusLe a c := le_trans h1 h2

theorem statusLe_complete_right (a : NodeStatus) : statusLe a .complete := by
  cases a <;> simp [statusLe, statusRank]

theorem statusLe_complete_left {a : NodeStatus} (h : statusLe .complete a) :
    a = .complete := by
  cases a <;> simp_all [statusLe, statusRank]

/-- The precondition for backpropagating from node `nid` with the given fuel:
every node on the parent chain (up to `fuel` hops) exists and is `complete`. -/
def bpOk (t : List ENode) : Nat → Nat → Prop
  | 0, _ => True
  | fuel + 1, nid =>
    ∃ n, t[nid]? = some n ∧ n.status = .complete ∧
      ∀ p, n.parent_id = some p → bpOk t fuel p

/-- Tree evolution order: every node keeps its position and its parent link,
and a `complete` status is never lost. -/
def treeLe (t t' : List ENode) : Prop :=
  ∀ (i : Nat) (n : ENode), t[i]? = some n → ∃ n' : ENode, t'[i]? = some n' ∧
    n'.parent_id = n.parent_id ∧ (n.status = .complete → n'.status = .complete)

theorem treeLe_refl (t : List ENode) : treeLe t t :=
  fun _ n h => ⟨n, h, rfl, fun hc => hc⟩

theorem treeLe_trans {t1 t2 t3 : List ENode} (h1 : treeLe t1 t2) (h2 : treeLe t2 t3) :
    treeLe t1 t3 := by
  intro i n hn
  obtain ⟨n2, hn2, hp2, hs2⟩ := h1 i n hn
  obtain ⟨n3, hn3, hp3, hs3⟩ := h2 i n2 hn2
  exact ⟨n3, hn3, hp3.trans hp2, fun hc => hs3 (hs2 hc)⟩

theorem bpOk_mono {t t' : List ENode} (h : treeLe t t') :
    ∀ fuel v, bpOk t fuel v → bpOk t' fuel v := by
  intro fuel
  induction fuel with
  | zero => intro v _; trivial
  | succ f ih =>
    intro v hv
    obtain ⟨n, hn, hc, hp⟩ := hv
    obtain ⟨n', hn', hpar, hst⟩ := h v n hn
    refine ⟨n', hn', hst hc, fun p hp' => ih p (hp p ?_)⟩
    rw [← hpar]
    exact hp'

/-- Sequential id assignment: the arena's ids are exactly the positions. -/
def idsSeq (t : List ENode) : Prop := t.map ENode.node_id = List.range t.length

theorem idsSeq_nodeId {t : List ENode} (h : idsSeq t) {i : Nat} {n : ENode}
    (hn : t[i]? = some n) : n.node_id = i := by
  have hlt : i < t.length := (List.getElem?_eq_some.mp hn).1
  have h1 : (t.map ENode.node_id)[i]? = some n.node_id := by
    rw [List.getElem?_map, hn]
    rfl
  rw [h] at h1
  have h2 : (List.range t.length)[i]? = some i := by
    simp [List.getElem?_range, hlt]
  rw [h1] at h2
  exact (Option.some.injEq _ _ ▸ h2)

theorem idsSeq_lookup_of_mem {t : List ENode} (h : idsSeq t) {n : ENode}
    (hn : n ∈ t) : t[n.node_id]? = some n := by
  obtain ⟨i, hi⟩ := List.mem_iff_get.mp hn
  have hget : t[(i : Nat)]? = some n := by
    rw [List.getElem?_eq_getElem i.isLt]
    simp [← List.get_eq_getElem, hi]
  have := idsSeq_nodeId h hget
  rw [this]
  exact hget

theorem mem_of_lookup {t : List ENode} {i : Nat} {n : ENode}
    (h : t[i]? = some n) : n ∈ t := by
  obtain ⟨hlt, he⟩ := List.getElem?_eq_some.mp h
  exact he ▸ List.getElem_mem hlt

theorem lookup_exists {t : List ENode} {i : Nat} (h : i < t.length) :
    ∃ n : ENode, t[i]? = some n :=
  ⟨t.get ⟨i, h⟩, by rw [List.getElem?_eq_getElem h, List.get_eq_getElem]⟩

theorem mapById_getElem (t : List ENode) (v : Nat) (f : ENode → ENode) (i : Nat) :
    (mapById t v f)[i]? = (t[i]?).map fun n => if n.node_id = v then f n else n :=
  List.getElem?_map _ t i

theorem mapById_length (t : List ENode) (v : Nat) (f : ENode → ENode) :
    (mapById t v f).length = t.length := List.length_map t _

theorem mapById_mem {t : List ENode} {v : Nat} {f : ENode → ENode} {n' : ENode}
    (h : n' ∈ mapById t v f) :
    ∃ n ∈ t, n' = if n.node_id = v then f n else n := by
  obtain ⟨n, hn, he⟩ := List.mem_map.mp h
  exact ⟨n, hn, he.symm⟩

/-! ## The engine invariant -/

/-- The well-formedness invariant of a reachable engine state: sequential
ids, a unique root, consistent parent/child links and depths (§3, §8), score
set exactly at completion, and the trace discipline of §5 (legal per-node
event shapes, events only for existing nodes, one expansion per non-root
node, parents expanded before their children). -/
structure EngInv (t : List ENode) (tr : List TraceEv) : Prop where
  ids : idsSeq t
  nonempty : t ≠ []
  rootPar : ∀ n ∈ t, (n.parent_id = none ↔ n.node_id = 0)
  rootDepth : ∀ n ∈ t, n.parent_id = none → n.depth = 0
  parLt : ∀ n ∈ t, ∀ p, n.parent_id = some p → p < n.node_id
  parDepth : ∀ n ∈ t, ∀ p, n.parent_id = some p →
    ∃ pn, t[p]? = some pn ∧ n.depth = pn.depth + 1
  childMem : ∀ p ∈ t, ∀ c ∈ p.children_ids,
    ∃ cn, t[c]? = some cn ∧ cn.parent_id = some p.node_id
  parChild : ∀ n ∈ t, ∀ p, n.parent_id = some p →
    ∃ pn, t[p]? = some pn ∧ n.node_id ∈ pn.children_ids
  scoreIff : ∀ n ∈ t, (n.evaluation_score.isSome ↔ n.status = .complete)
  noEvaluating : ∀ n ∈ t, n.status ≠ .evaluating
  shape : ∀ v, NodeShape (evsFor v tr)
  statusDone : ∀ n ∈ t,
    (n.status = .complete ↔ (⟨.evalDone, n.node_id⟩ : TraceEv) ∈ tr)
  ghost : ∀ e ∈ tr, e.node_id < t.length
  expLink : ∀ n ∈ t,
    (n.parent_id.isSome ↔ (⟨.expansion, n.node_id⟩ : TraceEv) ∈ tr)
  parentFirst : ∀ n ∈ t, ∀ p pn, n.parent_id = some p → t[p]? = some pn →
    pn.parent_id.isSome →
    precedes ⟨.expansion, p⟩ ⟨.expansion, n.node_id⟩ tr

theorem inv_init (state : List String) :
    EngInv (initEngine state).tree (initEngine state).trace := by
  constructor
  case ids =>
    simp only [initEngine, idsSeq, List.map, rootNode, List.length]
    decide
  case nonempty => simp [initEngine]
  case rootPar =>
    intro n hn
    simp only [initEngine, List.mem_singleton] at hn
    subst hn
    simp [rootNode]
  case rootDepth =>
    intro n hn _
    simp only [initEngine, List.mem_singleton] at hn
    subst hn
    rfl
  case parLt =>
    intro n hn p hp
    simp only [initEngine, List.mem_singleton] at hn
    subst hn
    simp [rootNode] at hp
  case parDepth =>
    intro n hn p hp
    simp only [initEngine, List.mem_singleton] at hn
    subst hn
    simp [rootNode] at hp
  case childMem =>
    intro p hp c hc
    simp only [initEngine, List.mem_singleton] at hp
    subst hp
    simp [rootNode] at hc
  case parChild =>
    intro n hn p hp
    simp only [initEngine, List.mem_singleton] at hn
    subst hn
    simp [rootNode] at hp
  case scoreIff =>
    intro n hn
    simp only [initEngine, List.mem_singleton] at hn
    subst hn
    simp [rootNode]
  case noEvaluating =>
    intro n hn
    simp only [initEngine, List.mem_singleton] at hn
    subst hn
    simp [rootNode]
  case shape =>
    intro v
    simp only [initEngine]
    exact NodeShape.nil
  case statusDone =>
    intro n hn
    simp only [initEngine, List.mem_singleton] at hn
    subst hn
    simp [rootNode, initEngine]
  case ghost =>
    intro e he
    simp [initEngine] at he
  case expLink =>
    intro n hn
    simp only [initEngine, List.mem_singleton] at hn
    subst hn
    simp [rootNode, initEngine]
  case parentFirst =>
    intro n hn p pn hp _ _
    simp only [initEngine, List.mem_singleton] at hn
    subst hn
    simp [rootNode] at hp

/-! ## Preservation of the invariant by `addChildE` -/

theorem ifLink_node_id (pid nid : Nat) (q : ENode) :
    (if q.node_id = pid then linkChild nid q else q).node_id = q.node_id := by
  split <;> rfl

theorem ifLink_parent_id (pid nid : Nat) (q : ENode) :
    (if q.node_id = pid then linkChild nid q else q).parent_id = q.parent_id := by
  split <;> rfl

theorem ifLink_depth (pid nid : Nat) (q : ENode) :
    (if q.node_id = pid then linkChild nid q else q).depth = q.depth := by
  split <;> rfl

theorem ifLink_status (pid nid : Nat) (q : ENode) :
    (if q.node_id = pid then linkChild nid q else q).status = q.status := by
  split <;> rfl

theorem ifLink_score (pid nid : Nat) (q : ENode) :
    (if q.node_id = pid then linkChild nid q else q).evaluation_score =
      q.evaluation_score := by
  split <;> rfl

theorem ifLink_children_sub (pid nid : Nat) (q : ENode) :
    q.children_ids ⊆ (if q.node_id = pid then linkChild nid q else q).children_ids := by
  split
  · exact fun c hc => List.mem_append.mpr (Or.inl hc)
  · exact fun c hc => hc

theorem ifLink_children_cases (pid nid : Nat) (q : ENode) {c : Nat}
    (hc : c ∈ (if q.node_id = pid then linkChild nid q else q).children_ids) :
    c ∈ q.children_ids ∨ (c = nid ∧ q.node_id = pid) := by
  by_cases h : q.node_id = pid
  · rw [if_pos h] at hc
    rcases List.mem_append.mp hc with hc | hc
    · exact Or.inl hc
    · exact Or.inr ⟨List.mem_singleton.mp hc, h⟩
  · rw [if_neg h] at hc
    exact Or.inl hc

theorem addChild_eq {t : List ENode} {pid : Nat} {p : ENode}
    (hp : t[pid]? = some p) (action : String) :
    addChildE t pid action =
      (mapById t pid (linkChild t.length) ++ [mkChild t.length p action],
        t.length) := by
  unfold addChildE
  rw [hp]

theorem newTree_lookup_lt {t : List ENode} (pid : Nat) (child : ENode)
    {i : Nat} (hi : i < t.length) :
    (mapById t pid (linkChild t.length) ++ [child])[i]? =
      (t[i]?).map fun q => if q.node_id = pid then linkChild t.length q else q := by
  rw [List.getElem?_append_left (by rw [mapById_length]; exact hi)]
  exact mapById_getElem t pid _ i

theorem newTree_lookup_len {t : List ENode} (pid : Nat) (child : ENode) :
    (mapById t pid (linkChild t.length) ++ [child])[t.length]? = some child := by
  have hlen : (mapById t pid (linkChild t.length)).length = t.length :=
    mapById_length t pid _
  rw [List.getElem?_append_right (by rw [hlen])]
  rw [hlen]
  simp

theorem newTree_lookup_cases {t : List ENode} (pid : Nat) (child : ENode)
    {i : Nat} {n' : ENode}
    (h : (mapById t pid (linkChild t.length) ++ [child])[i]? = some n') :
    (i < t.length ∧ ∃ n, t[i]? = some n ∧
      n' = if n.node_id = pid then linkChild t.length n else n) ∨
    (i = t.length ∧ n' = child) := by
  rcases lt_trichotomy i t.length with hi | hi | hi
  · left
    refine ⟨hi, ?_⟩
    rw [newTree_lookup_lt pid child hi] at h
    obtain ⟨n, hn⟩ := Option.map_eq_some'.mp h
    exact ⟨n, hn.1, hn.2.symm⟩
  · right
    subst hi
    rw [newTree_lookup_len pid child] at h
    exact ⟨rfl, (Option.some.injEq _ _ ▸ h).symm⟩
  · exfalso
    rw [List.getElem?_eq_none (by simp [mapById_length]; omega)] at h
    exact Option.noConfusion h

theorem newTree_mem_cases {t : List ENode} {pid : Nat} {child : ENode} {n' : ENode}
    (h : n' ∈ mapById t pid (linkChild t.length) ++ [child]) :
    (∃ n ∈ t, n' = if n.node_id = pid then linkChild t.length n else n) ∨
      n' = child := by
  rcases List.mem_append.mp h with h | h
  · exact Or.inl (mapById_mem h)
  · exact Or.inr (List.mem_singleton.mp h)

theorem map_nodeId_mapById (t : List ENode) (v : Nat) (f : ENode → ENode)
    (hf : ∀ q, (f q).node_id = q.node_id) :
    (mapById t v f).map ENode.node_id = t.map ENode.node_id := by
  unfold mapById
  rw [List.map_map]
  apply List.map_congr_left
  intro q _
  simp only [Function.comp_apply]
  split
  · exact hf q
  · rfl

theorem mem_lookup_lt {t : List ENode} (h : idsSeq t) {n : ENode} (hn : n ∈ t) :
    t[n.node_id]? = some n ∧ n.node_id < t.length :=
  ⟨idsSeq_lookup_of_mem h hn, (List.getElem?_eq_some.mp (idsSeq_lookup_of_mem h hn)).1⟩

theorem inv_addChild {t : List ENode} {tr : List TraceEv}
    (hI : EngInv t tr) {pid : Nat} {p : ENode}
    (hp : t[pid]? = some p) (action : String) :
    EngInv (mapById t pid (linkChild t.length) ++ [mkChild t.length p action])
      (tr ++ [⟨.expansion, t.length⟩]) := by
  have hpidlt : pid < t.length := (List.getElem?_eq_some.mp hp).1
  have hpid_id : p.node_id = pid := idsSeq_nodeId hI.ids hp
  have hpmem : p ∈ t := mem_of_lookup hp
  have hlenpos : 0 < t.length := List.length_pos.mpr hI.nonempty
  have hulen :
      (mapById t pid (linkChild t.length) ++ [mkChild t.length p action]).length =
        t.length + 1 := by
    rw [List.length_append, mapById_length]
    rfl
  have hchild_id : (mkChild t.length p action).node_id = t.length := rfl
  have hchild_par : (mkChild t.length p action).parent_id = some p.node_id := rfl
  constructor
  case ids =>
    unfold idsSeq
    rw [hulen, List.map_append,
      map_nodeId_mapById t pid (linkChild t.length) (fun q => rfl), hI.ids,
      List.range_succ]
    rfl
  case nonempty =>
    intro h
    rw [← List.length_eq_zero] at h
    omega
  case rootPar =>
    intro n' hmem
    rcases newTree_mem_cases hmem with ⟨n, hn, he⟩ | he
    · subst he
      rw [ifLink_parent_id, ifLink_node_id]
      exact hI.rootPar n hn
    · subst he
      rw [hchild_par, hchild_id]
      constructor
      · intro hnone
        exact Option.noConfusion hnone
      · intro h0
        omega
  case rootDepth =>
    intro n' hmem hnone
    rcases newTree_mem_cases hmem with ⟨n, hn, he⟩ | he
    · subst he
      rw [ifLink_depth]
      rw [ifLink_parent_id] at hnone
      exact hI.rootDepth n hn hnone
    · subst he
      rw [hchild_par] at hnone
      exact Option.noConfusion hnone
  case parLt =>
    intro n' hmem q hq
    rcases newTree_mem_cases hmem with ⟨n, hn, he⟩ | he
    · subst he
      rw [ifLink_parent_id] at hq
      rw [ifLink_node_id]
      exact hI.parLt n hn q hq
    · subst he
      rw [hchild_par] at hq
      injection hq with hq
      rw [hchild_id, ← hq, hpid_id]
      exact hpidlt
  case parDepth =>
    intro n' hmem q hq
    rcases newTree_mem_cases hmem with ⟨n, hn, he⟩ | he
    · subst he
      rw [ifLink_parent_id] at hq
      obtain ⟨pn, hpn, hdep⟩ := hI.parDepth n hn q hq
      have hqlt : q < t.length := (List.getElem?_eq_some.mp hpn).1
      refine ⟨if pn.node_id = pid then linkChild t.length pn else pn, ?_, ?_⟩
      · rw [newTree_lookup_lt pid _ hqlt, hpn]
        rfl
      · rw [ifLink_depth, ifLink_depth]
        exact hdep
    · subst he
      rw [hchild_par] at hq
      injection hq with hq
      refine ⟨linkChild t.length p, ?_, ?_⟩
      · rw [← hq, hpid_id, newTree_lookup_lt pid _ hpidlt, hp]
        simp [hpid_id]
      · rfl
  case childMem =>
    intro p' hmem c hc
    rcases newTree_mem_cases hmem with ⟨n, hn, he⟩ | he
    · subst he
      rcases ifLink_children_cases pid t.length n hc with hc | ⟨hc, hnp⟩
      · obtain ⟨cn, hcn, hcp⟩ := hI.childMem n hn c hc
        have hclt : c < t.length := (List.getElem?_eq_some.mp hcn).1
        refine ⟨if cn.node_id = pid then linkChild t.length cn else cn, ?_, ?_⟩
        · rw [newTree_lookup_lt pid _ hclt, hcn]
          rfl
        · rw [ifLink_parent_id, ifLink_node_id]
          exact hcp
      · subst hc
        have hnp' : n = p := by
          have h1 := idsSeq_lookup_of_mem hI.ids hn
          rw [hnp] at h1
          rw [hp] at h1
          exact (Option.some.inj h1).symm
        subst hnp'
        refine ⟨mkChild t.length n action, newTree_lookup_len pid _, ?_⟩
        rw [hchild_par, ifLink_node_id]
    · subst he
      exact absurd hc (by simp [mkChild])
  case parChild =>
    intro n' hmem q hq
    rcases newTree_mem_cases hmem with ⟨n, hn, he⟩ | he
    · subst he
      rw [ifLink_parent_id] at hq
      obtain ⟨pn, hpn, hcm⟩ := hI.parChild n hn q hq
      have hqlt : q < t.length := (List.getElem?_eq_some.mp hpn).1
      refine ⟨if pn.node_id = pid then linkChild t.length pn else pn, ?_, ?_⟩
      · rw [newTree_lookup_lt pid _ hqlt, hpn]
        rfl
      · rw [ifLink_node_id]
        exact ifLink_children_sub pid t.length pn hcm
    · subst he
      rw [hchild_par] at hq
      injection hq with hq
      refine ⟨linkChild t.length p, ?_, ?_⟩
      · rw [← hq, hpid_id, newTree_lookup_lt pid _ hpidlt, hp]
        simp [hpid_id]
      · rw [hchild_id]
        exact List.mem_append.mpr (Or.inr (List.mem_singleton.mpr rfl))
  case scoreIff =>
    intro n' hmem
    rcases newTree_mem_cases hmem with ⟨n, hn, he⟩ | he
    · subst he
      rw [ifLink_score, ifLink_status]
      exact hI.scoreIff n hn
    · subst he
      simp [mkChild]
  case noEvaluating =>
    intro n' hmem
    rcases newTree_mem_cases hmem with ⟨n, hn, he⟩ | he
    · subst he
      rw [ifLink_status]
      exact hI.noEvaluating n hn
    · subst he
      simp [mkChild]
  case shape =>
    intro v
    rw [evsFor_append]
    by_cases hv : v = t.length
    · subst hv
      rw [evsFor_eq_nil_of_forall fun e he => Nat.ne_of_lt (hI.ghost e he)]
      have h2 : evsFor t.length [⟨.expansion, t.length⟩] = [.expansion] := by
        simp [evsFor]
      rw [h2, List.nil_append]
      exact NodeShape.single_exp
    · have h2 : evsFor v [⟨.expansion, t.length⟩] = [] := by
        simp [evsFor, Ne.symm hv]
      rw [h2, List.append_nil]
      exact hI.shape v
  case statusDone =>
    intro n' hmem
    rcases newTree_mem_cases hmem with ⟨n, hn, he⟩ | he
    · subst he
      rw [ifLink_status, ifLink_node_id]
      rw [List.mem_append]
      constructor
      · intro hc
        exact Or.inl ((hI.statusDone n hn).mp hc)
      · intro hor
        rcases hor with hm | hm
        · exact (hI.statusDone n hn).mpr hm
        · exact absurd (List.mem_singleton.mp hm) (by simp)
    · subst he
      have hst : (mkChild t.length p action).status = .exploring := rfl
      rw [hst, hchild_id, List.mem_append]
      constructor
      · intro hc
        exact absurd hc (by decide)
      · intro hor
        rcases hor with hm | hm
        · exact absurd (hI.ghost _ hm) (by simp)
        · exact absurd (List.mem_singleton.mp hm) (by simp)
  case ghost =>
    intro e he
    rw [hulen]
    rcases List.mem_append.mp he with hm | hm
    · exact Nat.lt_succ_of_lt (hI.ghost e hm)
    · rw [List.mem_singleton.mp hm]
      exact Nat.lt_succ_self _
  case expLink =>
    intro n' hmem
    rcases newTree_mem_cases hmem with ⟨n, hn, he⟩ | he
    · subst he
      rw [ifLink_parent_id, ifLink_node_id, List.mem_append]
      have hnlt := (mem_lookup_lt hI.ids hn).2
      constructor
      · intro hs
        exact Or.inl ((hI.expLink n hn).mp hs)
      · intro hor
        rcases hor with hm | hm
        · exact (hI.expLink n hn).mpr hm
        · exfalso
          have := List.mem_singleton.mp hm
          have hid : n.node_id = t.length := by
            injection this with h1 h2
          omega
    · subst he
      rw [hchild_par, hchild_id]
      constructor
      · intro _
        exact List.mem_append.mpr (Or.inr (List.mem_singleton.mpr rfl))
      · intro _
        rfl
  case parentFirst =>
    intro n' hmem q qn' hq hlook hqpar
    rcases newTree_mem_cases hmem with ⟨n, hn, he⟩ | he
    · subst he
      rw [ifLink_parent_id] at hq
      have hnlt := (mem_lookup_lt hI.ids hn).2
      have hqlt : q < t.length := lt_trans (hI.parLt n hn q hq) hnlt
      obtain ⟨qn, hqn⟩ : ∃ qn, t[q]? = some qn := lookup_exists hqlt
      have hqn' : qn' = if qn.node_id = pid then linkChild t.length qn else qn := by
        rw [newTree_lookup_lt pid _ hqlt, hqn] at hlook
        exact (Option.some.inj hlook).symm
      have hqnpar : qn.parent_id.isSome := by
        rw [hqn', ifLink_parent_id] at hqpar
        exact hqpar
      rw [ifLink_node_id]
      refine precedes_append_not_mem
        (hI.parentFirst n hn q qn hq hqn hqnpar) ?_
      intro hm
      have := List.mem_singleton.mp hm
      have : n.node_id = t.length := by injection this with h1 h2
      omega
    · subst he
      rw [hchild_par] at hq
      injection hq with hq
      have hqpid : q = pid := by rw [← hq, hpid_id]
      have hqn' : qn' = linkChild t.length p := by
        rw [hqpid, newTree_lookup_lt pid _ hpidlt, hp] at hlook
        simp only [Option.map_some', if_pos hpid_id] at hlook
        exact (Option.some.inj hlook).symm
      have hppar : p.parent_id.isSome := by
        rw [hqn'] at hqpar
        exact hqpar
      have hexp : (⟨.expansion, q⟩ : TraceEv) ∈ tr := by
        have h3 := (hI.expLink p hpmem).mp hppar
        rw [hq] at h3
        exact h3
      rw [hchild_id]
      exact precedes_append_mem_left hexp
        (fun hm => absurd (hI.ghost _ hm) (by simp))

/-! ## Preservation of the invariant by the evaluation transition -/

theorem mapById_lookup_self {t : List ENode} (hids : idsSeq t) {nid : Nat}
    {n : ENode} (hn : t[nid]? = some n) (f : ENode → ENode) :
    (mapById t nid f)[nid]? = some (f n) := by
  rw [mapById_getElem, hn]
  simp [if_pos (idsSeq_nodeId hids hn)]

theorem mapById_lookup_other {t : List ENode} (hids : idsSeq t) {v i : Nat}
    {n : ENode} (hne : i ≠ v) (hn : t[i]? = some n) (f : ENode → ENode) :
    (mapById t v f)[i]? = some n := by
  rw [mapById_getElem, hn, Option.map_some']
  rw [if_neg (by rw [idsSeq_nodeId hids hn]; exact hne)]

theorem treeLe_mapById (t : List ENode) (v : Nat) (f : ENode → ENode)
    (hpar : ∀ q, (f q).parent_id = q.parent_id)
    (hst : ∀ q, q.status = .complete → (f q).status = .complete) :
    treeLe t (mapById t v f) := by
  intro i n hn
  rw [mapById_getElem, hn]
  refine ⟨if n.node_id = v then f n else n, rfl, ?_, ?_⟩
  · split
    · exact hpar n
    · rfl
  · intro hc
    split
    · exact hst n hc
    · exact hc

theorem treeLe_append (t ex : List ENode) : treeLe t (t ++ ex) := by
  intro i n hn
  have hi : i < t.length := (List.getElem?_eq_some.mp hn).1
  rw [List.getElem?_append_left hi]
  exact ⟨n, hn, rfl, fun hc => hc⟩

theorem inv_evalMark {t : List ENode} {tr : List TraceEv}
    (hI : EngInv t tr) {nid : Nat} {n : ENode}
    (hn : t[nid]? = some n) (hnc : n.status ≠ .complete) (score : Rat) :
    EngInv (mapById t nid (completeWith score))
      (tr ++ [⟨.evalStart, nid⟩, ⟨.evalDone, nid⟩]) := by
  have hnid_id : n.node_id = nid := idsSeq_nodeId hI.ids hn
  have hnmem : n ∈ t := mem_of_lookup hn
  have hnidlt : nid < t.length := (List.getElem?_eq_some.mp hn).1
  have hdone_not : (⟨.evalDone, nid⟩ : TraceEv) ∉ tr := by
    intro hm
    exact hnc ((hI.statusDone n hnmem).mpr (hnid_id ▸ hm))
  have hmemc : ∀ n' ∈ mapById t nid (completeWith score),
      ∃ m ∈ t, n' = if m.node_id = nid then completeWith score m else m :=
    fun n' h => mapById_mem h
  have hulen : (mapById t nid (completeWith score)).length = t.length :=
    mapById_length t nid _
  have hCid : ∀ m : ENode, (if m.node_id = nid then completeWith score m else m).node_id
      = m.node_id := by
    intro m
    split <;> rfl
  have hCpar : ∀ m : ENode,
      (if m.node_id = nid then completeWith score m else m).parent_id = m.parent_id := by
    intro m
    split <;> rfl
  have hCdep : ∀ m : ENode,
      (if m.node_id = nid then completeWith score m else m).depth = m.depth := by
    intro m
    split <;> rfl
  have hCch : ∀ m : ENode,
      (if m.node_id = nid then completeWith score m else m).children_ids =
        m.children_ids := by
    intro m
    split <;> rfl
  constructor
  case ids =>
    unfold idsSeq
    rw [hulen, map_nodeId_mapById t nid (completeWith score) (fun q => rfl), hI.ids]
  case nonempty =>
    intro h
    exact hI.nonempty (List.map_eq_nil_iff.mp h)
  case rootPar =>
    intro n' hmem
    obtain ⟨m, hm, he⟩ := hmemc n' hmem
    subst he
    rw [hCpar, hCid]
    exact hI.rootPar m hm
  case rootDepth =>
    intro n' hmem hnone
    obtain ⟨m, hm, he⟩ := hmemc n' hmem
    subst he
    rw [hCdep]
    rw [hCpar] at hnone
    exact hI.rootDepth m hm hnone
  case parLt =>
    intro n' hmem q hq
    obtain ⟨m, hm, he⟩ := hmemc n' hmem
    subst he
    rw [hCpar] at hq
    rw [hCid]
    exact hI.parLt m hm q hq
  case parDepth =>
    intro n' hmem q hq
    obtain ⟨m, hm, he⟩ := hmemc n' hmem
    subst he
    rw [hCpar] at hq
    obtain ⟨pn, hpn, hdep⟩ := hI.parDepth m hm q hq
    refine ⟨if pn.node_id = nid then completeWith score pn else pn, ?_, ?_⟩
    · rw [mapById_getElem, hpn]
      rfl
    · rw [hCdep, hCdep]
      exact hdep
  case childMem =>
    intro p' hmem c hc
    obtain ⟨m, hm, he⟩ := hmemc p' hmem
    subst he
    rw [hCch] at hc
    obtain ⟨cn, hcn, hcp⟩ := hI.childMem m hm c hc
    refine ⟨if cn.node_id = nid then completeWith score cn else cn, ?_, ?_⟩
    · rw [mapById_getElem, hcn]
      rfl
    · rw [hCpar, hCid]
      exact hcp
  case parChild =>
    intro n' hmem q hq
    obtain ⟨m, hm, he⟩ := hmemc n' hmem
    subst he
    rw [hCpar] at hq
    obtain ⟨pn, hpn, hcm⟩ := hI.parChild m hm q hq
    refine ⟨if pn.node_id = nid then completeWith score pn else pn, ?_, ?_⟩
    · rw [mapById_getElem, hpn]
      rfl
    · rw [hCid, hCch]
      exact hcm
  case scoreIff =>
    intro n' hmem
    obtain ⟨m, hm, he⟩ := hmemc n' hmem
    subst he
    split
    · simp [completeWith]
    · exact hI.scoreIff m hm
  case noEvaluating =>
    intro n' hmem
    obtain ⟨m, hm, he⟩ := hmemc n' hmem
    subst he
    split
    · simp [completeWith]
    · exact hI.noEvaluating m hm
  case shape =>
    intro v
    rw [evsFor_append]
    by_cases hv : v = nid
    · subst hv
      have h2 : evsFor v [⟨.evalStart, v⟩, ⟨.evalDone, v⟩] =
          [.evalStart, .evalDone] := by
        simp [evsFor]
      rw [h2]
      refine NodeShape.append_eval (hI.shape v) ?_
      intro hm
      exact hdone_not (mem_evsFor.mp hm)
    · have h2 : evsFor v [⟨.evalStart, nid⟩, ⟨.evalDone, nid⟩] = [] := by
        simp [evsFor, Ne.symm hv]
      rw [h2, List.append_nil]
      exact hI.shape v
  case statusDone =>
    intro n' hmem
    obtain ⟨m, hm, he⟩ := hmemc n' hmem
    subst he
    by_cases hmv : m.node_id = nid
    · rw [if_pos hmv]
      constructor
      · intro _
        refine List.mem_append.mpr (Or.inr ?_)
        have hcid : (completeWith score m).node_id = nid := hmv
        rw [hcid]
        exact List.mem_cons.mpr (Or.inr (List.mem_singleton.mpr rfl))
      · intro _
        rfl
    · rw [if_neg hmv, List.mem_append]
      constructor
      · intro hc
        exact Or.inl ((hI.statusDone m hm).mp hc)
      · intro hor
        rcases hor with h2 | h2
        · exact (hI.statusDone m hm).mpr h2
        · rcases List.mem_cons.mp h2 with h2 | h2
          · exact absurd h2 (by simp)
          · exfalso
            have h3 := List.mem_singleton.mp h2
            have h4 : m.node_id = nid := by injection h3 with ha hb
            exact hmv h4
  case ghost =>
    intro e he
    rw [hulen]
    rcases List.mem_append.mp he with hm | hm
    · exact hI.ghost e hm
    · rcases List.mem_cons.mp hm with hm | hm
      · rw [hm]
        exact hnidlt
      · rw [List.mem_singleton.mp hm]
        exact hnidlt
  case expLink =>
    intro n' hmem
    obtain ⟨m, hm, he⟩ := hmemc n' hmem
    subst he
    rw [hCpar, hCid, List.mem_append]
    constructor
    · intro hs
      exact Or.inl ((hI.expLink m hm).mp hs)
    · intro hor
      rcases hor with hm2 | hm2
      · exact (hI.expLink m hm).mpr hm2
      · rcases List.mem_cons.mp hm2 with hm2 | hm2
        · exact absurd hm2 (by simp)
        · exact absurd (List.mem_singleton.mp hm2) (by simp)
  case parentFirst =>
    intro n' hmem q qn' hq hlook hqpar
    obtain ⟨m, hm, he⟩ := hmemc n' hmem
    subst he
    rw [hCpar] at hq
    have hmlt := (mem_lookup_lt hI.ids hm).2
    have hqlt : q < t.length := lt_trans (hI.parLt m hm q hq) hmlt
    obtain ⟨qn, hqn⟩ : ∃ qn, t[q]? = some qn := lookup_exists hqlt
    have hqn'e : qn' = if qn.node_id = nid then completeWith score qn else qn := by
      rw [mapById_getElem, hqn] at hlook
      exact (Option.some.inj hlook).symm
    have hqnpar : qn.parent_id.isSome := by
      rw [hqn'e, hCpar] at hqpar
      exact hqpar
    rw [hCid]
    refine precedes_append_not_mem (hI.parentFirst m hm q qn hq hqn hqnpar) ?_
    intro hm2
    rcases List.mem_cons.mp hm2 with hm2 | hm2
    · exact absurd hm2 (by simp)
    · exact absurd (List.mem_singleton.mp hm2) (by simp)

/-! ## Preservation of the invariant by backpropagation -/

/-- Evolution that only touches `visit_count`/`cumulative_value`. -/
def sameSkeleton (t t' : List ENode) : Prop :=
  ∀ (i : Nat) (n : ENode), t[i]? = some n → ∃ n' : ENode, t'[i]? = some n' ∧
    n'.node_id = n.node_id ∧ n'.parent_id = n.parent_id ∧ n'.depth = n.depth ∧
    n'.children_ids = n.children_ids ∧ n'.status = n.status ∧
    n'.evaluation_score = n.evaluation_score ∧ n'.state = n.state

theorem sameSkeleton_refl (t : List ENode) : sameSkeleton t t :=
  fun _ n h => ⟨n, h, rfl, rfl, rfl, rfl, rfl, rfl, rfl⟩

theorem sameSkeleton_trans {t1 t2 t3 : List ENode}
    (h1 : sameSkeleton t1 t2) (h2 : sameSkeleton t2 t3) : sameSkeleton t1 t3 := by
  intro i n hn
  obtain ⟨m, hm, e1, e2, e3, e4, e5, e6, e7⟩ := h1 i n hn
  obtain ⟨m', hm', f1, f2, f3, f4, f5, f6, f7⟩ := h2 i m hm
  exact ⟨m', hm', f1.trans e1, f2.trans e2, f3.trans e3, f4.trans e4,
    f5.trans e5, f6.trans e6, f7.trans e7⟩

theorem sameSkeleton_treeLe {t t' : List ENode} (h : sameSkeleton t t') :
    treeLe t t' := by
  intro i n hn
  obtain ⟨n', hn', _, e2, _, _, e5, _, _⟩ := h i n hn
  exact ⟨n', hn', e2, fun hc => e5.trans hc⟩

theorem sameSkeleton_bpUpdate (t : List ENode) (v : Nat) (score : Rat) :
    sameSkeleton t (mapById t v (bpUpdate score)) := by
  intro i n hn
  rw [mapById_getElem, hn, Option.map_some']
  refine ⟨_, rfl, ?_, ?_, ?_, ?_, ?_, ?_, ?_⟩ <;> (split <;> rfl)

theorem inv_bpOne {t : List ENode} {tr : List TraceEv}
    (hI : EngInv t tr) {nid : Nat} {n : ENode}
    (hn : t[nid]? = some n) (hnc : n.status = .complete) (score : Rat) :
    EngInv (mapById t nid (bpUpdate score)) (tr ++ [⟨.backprop, nid⟩]) := by
  have hnid_id : n.node_id = nid := idsSeq_nodeId hI.ids hn
  have hnmem : n ∈ t := mem_of_lookup hn
  have hnidlt : nid < t.length := (List.getElem?_eq_some.mp hn).1
  have hdone_mem : (⟨.evalDone, nid⟩ : TraceEv) ∈ tr :=
    hnid_id ▸ (hI.statusDone n hnmem).mp hnc
  have hmemc : ∀ n' ∈ mapById t nid (bpUpdate score),
      ∃ m ∈ t, n' = if m.node_id = nid then bpUpdate score m else m :=
    fun n' h => mapById_mem h
  have hulen : (mapById t nid (bpUpdate score)).length = t.length :=
    mapById_length t nid _
  have hCid : ∀ m : ENode,
      (if m.node_id = nid then bpUpdate score m else m).node_id = m.node_id := by
    intro m
    split <;> rfl
  have hCpar : ∀ m : ENode,
      (if m.node_id = nid then bpUpdate score m else m).parent_id = m.parent_id := by
    intro m
    split <;> rfl
  have hCdep : ∀ m : ENode,
      (if m.node_id = nid then bpUpdate score m else m).depth = m.depth := by
    intro m
    split <;> rfl
  have hCch : ∀ m : ENode,
      (if m.node_id = nid then bpUpdate score m else m).children_ids =
        m.children_ids := by
    intro m
    split <;> rfl
  have hCst : ∀ m : ENode,
      (if m.node_id = nid then bpUpdate score m else m).status = m.status := by
    intro m
    split <;> rfl
  have hCsc : ∀ m : ENode,
      (if m.node_id = nid then bpUpdate score m else m).evaluation_score =
        m.evaluation_score := by
    intro m
    split <;> rfl
  constructor
  case ids =>
    unfold idsSeq
    rw [hulen, map_nodeId_mapById t nid (bpUpdate score) (fun q => rfl), hI.ids]
  case nonempty =>
    intro h
    exact hI.nonempty (List.map_eq_nil_iff.mp h)
  case rootPar =>
    intro n' hmem
    obtain ⟨m, hm, he⟩ := hmemc n' hmem
    subst he
    rw [hCpar, hCid]
    exact hI.rootPar m hm
  case rootDepth =>
    intro n' hmem hnone
    obtain ⟨m, hm, he⟩ := hmemc n' hmem
    subst he
    rw [hCdep]
    rw [hCpar] at hnone
    exact hI.rootDepth m hm hnone
  case parLt =>
    intro n' hmem q hq
    obtain ⟨m, hm, he⟩ := hmemc n' hmem
    subst he
    rw [hCpar] at hq
    rw [hCid]
    exact hI.parLt m hm q hq
  case parDepth =>
    intro n' hmem q hq
    obtain ⟨m, hm, he⟩ := hmemc n' hmem
    subst he
    rw [hCpar] at hq
    obtain ⟨pn, hpn, hdep⟩ := hI.parDepth m hm q hq
    refine ⟨if pn.node_id = nid then bpUpdate score pn else pn, ?_, ?_⟩
    · rw [mapById_getElem, hpn]
      rfl
    · rw [hCdep, hCdep]
      exact hdep
  case childMem =>
    intro p' hmem c hc
    obtain ⟨m, hm, he⟩ := hmemc p' hmem
    subst he
    rw [hCch] at hc
    obtain ⟨cn, hcn, hcp⟩ := hI.childMem m hm c hc
    refine ⟨if cn.node_id = nid then bpUpdate score cn else cn, ?_, ?_⟩
    · rw [mapById_getElem, hcn]
      rfl
    · rw [hCpar, hCid]
      exact hcp
  case parChild =>
    intro n' hmem q hq
    obtain ⟨m, hm, he⟩ := hmemc n' hmem
    subst he
    rw [hCpar] at hq
    obtain ⟨pn, hpn, hcm⟩ := hI.parChild m hm q hq
    refine ⟨if pn.node_id = nid then bpUpdate score pn else pn, ?_, ?_⟩
    · rw [mapById_getElem, hpn]
      rfl
    · rw [hCid, hCch]
      exact hcm
  case scoreIff =>
    intro n' hmem
    obtain ⟨m, hm, he⟩ := hmemc n' hmem
    subst he
    rw [hCsc, hCst]
    exact hI.scoreIff m hm
  case noEvaluating =>
    intro n' hmem
    obtain ⟨m, hm, he⟩ := hmemc n' hmem
    subst he
    rw [hCst]
    exact hI.noEvaluating m hm
  case shape =>
    intro v
    rw [evsFor_append]
    by_cases hv : v = nid
    · subst hv
      have h2 : evsFor v [⟨.backprop, v⟩] = [.backprop] := by
        simp [evsFor]
      rw [h2]
      refine NodeShape.append_bp (hI.shape v) ?_
      exact mem_evsFor.mpr hdone_mem
    · have h2 : evsFor v [⟨.backprop, nid⟩] = [] := by
        simp [evsFor, Ne.symm hv]
      rw [h2, List.append_nil]
      exact hI.shape v
  case statusDone =>
    intro n' hmem
    obtain ⟨m, hm, he⟩ := hmemc n' hmem
    subst he
    rw [hCst, hCid, List.mem_append]
    constructor
    · intro hc
      exact Or.inl ((hI.statusDone m hm).mp hc)
    · intro hor
      rcases hor with h2 | h2
      · exact (hI.statusDone m hm).mpr h2
      · exact absurd (List.mem_singleton.mp h2) (by simp)
  case ghost =>
    intro e he
    rw [hulen]
    rcases List.mem_append.mp he with hm | hm
    · exact hI.ghost e hm
    · rw [List.mem_singleton.mp hm]
      exact hnidlt
  case expLink =>
    intro n' hmem
    obtain ⟨m, hm, he⟩ := hmemc n' hmem
    subst he
    rw [hCpar, hCid, List.mem_append]
    constructor
    · intro hs
      exact Or.inl ((hI.expLink m hm).mp hs)
    · intro hor
      rcases hor with hm2 | hm2
      · exact (hI.expLink m hm).mpr hm2
      · exact absurd (List.mem_singleton.mp hm2) (by simp)
  case parentFirst =>
    intro n' hmem q qn' hq hlook hqpar
    obtain ⟨m, hm, he⟩ := hmemc n' hmem
    subst he
    rw [hCpar] at hq
    have hmlt := (mem_lookup_lt hI.ids hm).2
    have hqlt : q < t.length := lt_trans (hI.parLt m hm q hq) hmlt
    obtain ⟨qn, hqn⟩ : ∃ qn, t[q]? = some qn := lookup_exists hqlt
    have hqn'e : qn' = if qn.node_id = nid then bpUpdate score qn else qn := by
      rw [mapById_getElem, hqn] at hlook
      exact (Option.some.inj hlook).symm
    have hqnpar : qn.parent_id.isSome := by
      rw [hqn'e, hCpar] at hqpar
      exact hqpar
    rw [hCid]
    refine precedes_append_not_mem (hI.parentFirst m hm q qn hq hqn hqnpar) ?_
    intro hm2
    exact absurd (List.mem_singleton.mp hm2) (by simp)

theorem backstep_succ_some {f : Nat} {s : EngineState} {nid : Nat} {score : Rat}
    {n : ENode} (hn : s.tree[nid]? = some n) :
    backstep (f + 1) s nid score =
      (match n.parent_id with
       | none =>
         { s with tree := mapById s.tree nid (bpUpdate score)
                  trace := s.trace ++ [⟨.backprop, nid⟩] }
       | some pid =>
         backstep f
           { s with tree := mapById s.tree nid (bpUpdate score)
                    trace := s.trace ++ [⟨.backprop, nid⟩] }
           pid score) := by
  simp only [backstep, hn]

theorem inv_backstep :
    ∀ (fuel : Nat) (s : EngineState) (nid : Nat) (score : Rat),
    EngInv s.tree s.trace → bpOk s.tree fuel nid →
    EngInv (backstep fuel s nid score).tree (backstep fuel s nid score).trace ∧
      sameSkeleton s.tree (backstep fuel s nid score).tree := by
  intro fuel
  induction fuel with
  | zero =>
    intro s nid score hI _
    exact ⟨hI, sameSkeleton_refl _⟩
  | succ f ih =>
    intro s nid score hI hok
    obtain ⟨n, hn, hc, hp⟩ := hok
    rw [backstep_succ_some hn]
    have hI' : EngInv (mapById s.tree nid (bpUpdate score))
        (s.trace ++ [⟨.backprop, nid⟩]) := inv_bpOne hI hn hc score
    have hsk1 : sameSkeleton s.tree (mapById s.tree nid (bpUpdate score)) :=
      sameSkeleton_bpUpdate s.tree nid score
    cases hpar : n.parent_id with
    | none => exact ⟨hI', hsk1⟩
    | some pid =>
      have hok' : bpOk (mapById s.tree nid (bpUpdate score)) f pid :=
        bpOk_mono (sameSkeleton_treeLe hsk1) f pid (hp pid hpar)
      obtain ⟨hI2, hsk2⟩ :=
        ih { s with tree := mapById s.tree nid (bpUpdate score)
                    trace := s.trace ++ [⟨.backprop, nid⟩] } pid score hI' hok'
      exact ⟨hI2, sameSkeleton_trans hsk1 hsk2⟩

/-! ## Preservation of the invariant by `expandAll` -/

/-- Evolution that leaves every existing node's status, score, parent and
state untouched (only `children_ids`/statistics may change, and new nodes may
be appended). -/
def oldStable (t t' : List ENode) : Prop :=
  ∀ (i : Nat) (n : ENode), t[i]? = some n → ∃ n' : ENode, t'[i]? = some n' ∧
    n'.status = n.status ∧ n'.evaluation_score = n.evaluation_score ∧
    n'.parent_id = n.parent_id ∧ n'.state = n.state ∧ n'.depth = n.depth

theorem oldStable_refl (t : List ENode) : oldStable t t :=
  fun _ n h => ⟨n, h, rfl, rfl, rfl, rfl, rfl⟩

theorem oldStable_trans {t1 t2 t3 : List ENode}
    (h1 : oldStable t1 t2) (h2 : oldStable t2 t3) : oldStable t1 t3 := by
  intro i n hn
  obtain ⟨m, hm, e1, e2, e3, e4, e5⟩ := h1 i n hn
  obtain ⟨m', hm', f1, f2, f3, f4, f5⟩ := h2 i m hm
  exact ⟨m', hm', f1.trans e1, f2.trans e2, f3.trans e3, f4.trans e4, f5.trans e5⟩

theorem oldStable_treeLe {t t' : List ENode} (h : oldStable t t') : treeLe t t' := by
  intro i n hn
  obtain ⟨n', hn', e1, _, e3, _, _⟩ := h i n hn
  exact ⟨n', hn', e3, fun hc => e1.trans hc⟩

theorem sameSkeleton_oldStable {t t' : List ENode} (h : sameSkeleton t t') :
    oldStable t t' := by
  intro i n hn
  obtain ⟨n', hn', _, e2, e3, _, e5, e6, e7⟩ := h i n hn
  exact ⟨n', hn', e5, e6, e2, e7, e3⟩

theorem oldStable_addChild {t : List ENode} {pid : Nat} {p : ENode}
    (hp : t[pid]? = some p) (action : String) :
    oldStable t (mapById t pid (linkChild t.length) ++ [mkChild t.length p action]) := by
  intro i n hn
  have hi : i < t.length := (List.getElem?_eq_some.mp hn).1
  rw [newTree_lookup_lt pid _ hi, hn, Option.map_some']
  refine ⟨_, rfl, ?_, ?_, ?_, ?_, ?_⟩ <;> (split <;> rfl)

theorem expandAll_cons (s : EngineState) {pid : Nat} {p : ENode}
    (hp : s.tree[pid]? = some p) (a : String) (rest : List String) :
    expandAll s pid (a :: rest) =
      (let s' : EngineState :=
        { s with
          tree := mapById s.tree pid (linkChild s.tree.length) ++
            [mkChild s.tree.length p a]
          trace := s.trace ++ [⟨.expansion, s.tree.length⟩] }
       ((expandAll s' pid rest).1, s.tree.length :: (expandAll s' pid rest).2)) := by
  simp only [expandAll, addChild_eq hp]

theorem inv_expandAll :
    ∀ (acts : List String) (s : EngineState) (pid : Nat) (p : ENode),
    EngInv s.tree s.trace → s.tree[pid]? = some p →
    EngInv (expandAll s pid acts).1.tree (expandAll s pid acts).1.trace ∧
    oldStable s.tree (expandAll s pid acts).1.tree ∧
    ∀ cid ∈ (expandAll s pid acts).2,
      s.tree.length ≤ cid ∧
      ∃ c : ENode, (expandAll s pid acts).1.tree[cid]? = some c ∧
        c.status = .exploring ∧ c.parent_id = some pid := by
  intro acts
  induction acts with
  | nil =>
    intro s pid p hI _
    refine ⟨hI, oldStable_refl _, ?_⟩
    intro cid hcid
    simp [expandAll] at hcid
  | cons a rest ih =>
    intro s pid p hI hp
    have hpid_id : p.node_id = pid := idsSeq_nodeId hI.ids hp
    have hpidlt : pid < s.tree.length := (List.getElem?_eq_some.mp hp).1
    rw [expandAll_cons s hp a rest]
    have hI' : EngInv
        (mapById s.tree pid (linkChild s.tree.length) ++ [mkChild s.tree.length p a])
        (s.trace ++ [⟨.expansion, s.tree.length⟩]) := inv_addChild hI hp a
    have hp' : (mapById s.tree pid (linkChild s.tree.length) ++
        [mkChild s.tree.length p a])[pid]? = some (linkChild s.tree.length p) := by
      rw [newTree_lookup_lt pid _ hpidlt, hp, Option.map_some', if_pos hpid_id]
    have hstable1 :
        oldStable s.tree
          (mapById s.tree pid (linkChild s.tree.length) ++ [mkChild s.tree.length p a]) :=
      oldStable_addChild hp a
    obtain ⟨ih1, ih2, ih3⟩ := ih
      { s with
        tree := mapById s.tree pid (linkChild s.tree.length) ++
          [mkChild s.tree.length p a]
        trace := s.trace ++ [⟨.expansion, s.tree.length⟩] }
      pid (linkChild s.tree.length p) hI' hp'
    refine ⟨ih1, oldStable_trans hstable1 ih2, ?_⟩
    intro cid hcid
    rcases List.mem_cons.mp hcid with hcid | hcid
    · subst hcid
      have hchild : (mapById s.tree pid (linkChild s.tree.length) ++
          [mkChild s.tree.length p a])[s.tree.length]? =
            some (mkChild s.tree.length p a) := newTree_lookup_len pid _
      obtain ⟨c, hc, e1, e2, e3, _, _⟩ := ih2 s.tree.length _ hchild
      refine ⟨le_refl _, c, hc, ?_, ?_⟩
      · rw [e1]
        rfl
      · rw [e3]
        show some p.node_id = some pid
        rw [hpid_id]
    · obtain ⟨hle, hrest⟩ := ih3 cid hcid
      refine ⟨?_, hrest⟩
      refine le_trans ?_ hle
      rw [List.length_append, mapById_length]
      omega

/-! ## Preservation of the invariant by a full evaluation + backpropagation -/

theorem evalAndBp_some {oracle : Oracle} {s : EngineState} {nid : Nat} {n : ENode}
    (hn : s.tree[nid]? = some n) :
    evalAndBp oracle s nid =
      backstep (n.depth + 1)
        { s with
          tree := mapById s.tree nid (completeWith (evalScore oracle n.state))
          trace := s.trace ++ [⟨.evalStart, nid⟩, ⟨.evalDone, nid⟩] }
        nid (evalScore oracle n.state) := by
  simp only [evalAndBp, hn]

theorem backstep_length :
    ∀ (fuel : Nat) (s : EngineState) (nid : Nat) (score : Rat),
    (backstep fuel s nid score).tree.length = s.tree.length := by
  intro fuel
  induction fuel with
  | zero =>
    intro s nid score
    rfl
  | succ f ih =>
    intro s nid score
    rcases hn : s.tree[nid]? with _ | n
    · simp only [backstep, hn]
    · rw [backstep_succ_some hn]
      cases hpar : n.parent_id with
      | none =>
        show (mapById s.tree nid (bpUpdate score)).length = s.tree.length
        exact mapById_length _ _ _
      | some pid =>
        rw [ih]
        show (mapById s.tree nid (bpUpdate score)).length = s.tree.length
        exact mapById_length _ _ _

theorem inv_evalAndBp {oracle : Oracle} {s : EngineState} {nid : Nat} {n : ENode}
    (hI : EngInv s.tree s.trace) (hn : s.tree[nid]? = some n)
    (hnc : n.status ≠ .complete)
    (hanc : ∀ (fuel q : Nat), n.parent_id = some q → bpOk s.tree fuel q) :
    EngInv (evalAndBp oracle s nid).tree (evalAndBp oracle s nid).trace ∧
    (∃ n' : ENode, (evalAndBp oracle s nid).tree[nid]? = some n' ∧
      n'.status = .complete ∧
      n'.evaluation_score = some (evalScore oracle n.state)) ∧
    (∀ (i : Nat) (m : ENode), i ≠ nid → s.tree[i]? = some m →
      ∃ m' : ENode, (evalAndBp oracle s nid).tree[i]? = some m' ∧
        m'.status = m.status ∧ m'.evaluation_score = m.evaluation_score ∧
        m'.parent_id = m.parent_id ∧ m'.state = m.state ∧ m'.depth = m.depth) ∧
    (evalAndBp oracle s nid).tree.length = s.tree.length := by
  rw [evalAndBp_some hn]
  have hI2 : EngInv (mapById s.tree nid (completeWith (evalScore oracle n.state)))
      (s.trace ++ [⟨.evalStart, nid⟩, ⟨.evalDone, nid⟩]) :=
    inv_evalMark hI hn hnc _
  have hok : bpOk (mapById s.tree nid (completeWith (evalScore oracle n.state)))
      (n.depth + 1) nid := by
    refine ⟨completeWith (evalScore oracle n.state) n,
      mapById_lookup_self hI.ids hn _, rfl, ?_⟩
    intro q hq
    have hq' : n.parent_id = some q := hq
    exact bpOk_mono
      (treeLe_mapById s.tree nid (completeWith (evalScore oracle n.state))
        (fun m => rfl) (fun m _ => rfl))
      n.depth q (hanc n.depth q hq')
  obtain ⟨hI3, hsk⟩ := inv_backstep (n.depth + 1)
    { s with
      tree := mapById s.tree nid (completeWith (evalScore oracle n.state))
      trace := s.trace ++ [⟨.evalStart, nid⟩, ⟨.evalDone, nid⟩] }
    nid (evalScore oracle n.state) hI2 hok
  refine ⟨hI3, ?_, ?_, ?_⟩
  · obtain ⟨n', hn', _, _, _, _, e5, e6, _⟩ :=
      hsk nid (completeWith (evalScore oracle n.state) n)
        (mapById_lookup_self hI.ids hn _)
    exact ⟨n', hn', e5, e6⟩
  · intro i m hne hm
    obtain ⟨m', hm', e1, e2, e3, e4, e5, e6, e7⟩ :=
      hsk i m (mapById_lookup_other hI.ids hne hm _)
    exact ⟨m', hm', e5, e6, e2, e7, e3⟩
  · rw [backstep_length]
    exact mapById_length _ _ _

/-! ## One simulation iteration preserves the invariant -/

/-- Modelled from the spec: the structural guarantee of the §4.3 selection
walk — it returns an existing node, and it only descends past `complete`
nodes, so every proper ancestor of the selected node is `complete` (with the
whole ancestor chain intact). -/
def GoodSel (sel : EngineState → Nat) : Prop :=
  ∀ s : EngineState, EngInv s.tree s.trace →
    ∃ n : ENode, s.tree[sel s]? = some n ∧
      ∀ (fuel q : Nat), n.parent_id = some q → bpOk s.tree fuel q

/-- Per-node progress across one mutation: status only moves forward and a
set score is never unset. -/
def monoStep (t t' : List ENode) : Prop :=
  ∀ (i : Nat) (n : ENode), t[i]? = some n → ∃ n' : ENode, t'[i]? = some n' ∧
    statusLe n.status n'.status ∧
    ∀ x : Rat, n.evaluation_score = some x → n'.evaluation_score = some x

theorem monoStep_refl (t : List ENode) : monoStep t t :=
  fun _ n h => ⟨n, h, statusLe_refl _, fun _ hx => hx⟩

theorem monoStep_trans {t1 t2 t3 : List ENode}
    (h1 : monoStep t1 t2) (h2 : monoStep t2 t3) : monoStep t1 t3 := by
  intro i n hn
  obtain ⟨m, hm, e1, e2⟩ := h1 i n hn
  obtain ⟨m', hm', f1, f2⟩ := h2 i m hm
  exact ⟨m', hm', statusLe_trans e1 f1, fun x hx => f2 x (e2 x hx)⟩

theorem stepCore_eval {cfg : SearchConfig} {oracle : Oracle}
    {sel : EngineState → Nat} {s : EngineState} {n : ENode}
    (hn : s.tree[sel s]? = some n) (hc : ¬n.status = .complete) :
    stepCore cfg oracle sel s = evalAndBp oracle s (sel s) := by
  simp only [stepCore, hn, if_neg hc]

theorem stepCore_leaf {cfg : SearchConfig} {oracle : Oracle}
    {sel : EngineState → Nat} {s : EngineState} {n : ENode}
    (hn : s.tree[sel s]? = some n) (hc : n.status = .complete)
    (hex : ¬(n.depth < cfg.maxDepth ∧ n.children_ids.length < cfg.branching)) :
    stepCore cfg oracle sel s =
      backstep (n.depth + 1) s (sel s) (n.evaluation_score.getD fallbackMid) := by
  simp only [stepCore, hn, if_pos hc, if_neg hex]

theorem stepCore_expand {cfg : SearchConfig} {oracle : Oracle}
    {sel : EngineState → Nat} {s : EngineState} {n : ENode}
    (hn : s.tree[sel s]? = some n) (hc : n.status = .complete)
    (hex : n.depth < cfg.maxDepth ∧ n.children_ids.length < cfg.branching)
    {s1 : EngineState} {newIds : List Nat}
    (hE : expandAll s (sel s) (genActions oracle cfg n) = (s1, newIds)) :
    stepCore cfg oracle sel s =
      (match newIds with
       | c :: _ => evalAndBp oracle s1 c
       | [] => s1) := by
  simp only [stepCore, hn, if_pos hc, if_pos hex, hE]
  cases newIds <;> rfl

theorem stepCore_props {cfg : SearchConfig} {oracle : Oracle}
    {sel : EngineState → Nat} {s : EngineState} (hsel : GoodSel sel)
    (hI : EngInv s.tree s.trace) :
    EngInv (stepCore cfg oracle sel s).tree (stepCore cfg oracle sel s).trace ∧
      monoStep s.tree (stepCore cfg oracle sel s).tree := by
  obtain ⟨n, hn, hanc⟩ := hsel s hI
  by_cases hc : n.status = .complete
  · by_cases hex : n.depth < cfg.maxDepth ∧ n.children_ids.length < cfg.branching
    · rcases hE : expandAll s (sel s) (genActions oracle cfg n) with ⟨s1, newIds⟩
      rw [stepCore_expand hn hc hex hE]
      have hall := inv_expandAll (genActions oracle cfg n) s (sel s) n hI hn
      rw [hE] at hall
      obtain ⟨hI1, hstable, hids⟩ := hall
      cases newIds with
      | nil =>
        refine ⟨hI1, ?_⟩
        intro i m hm
        obtain ⟨m', hm', e1, e2, _, _, _⟩ := hstable i m hm
        refine ⟨m', hm', ?_, ?_⟩
        · rw [e1]
          exact statusLe_refl _
        · intro x hx
          rw [e2]
          exact hx
      | cons c restIds =>
        obtain ⟨hcfresh, cn, hcn, hcs, hcp⟩ := hids c (List.mem_cons_self _ _)
        have hcnc : cn.status ≠ .complete := by
          rw [hcs]
          intro h
          exact NodeStatus.noConfusion h
        have hanc1 : ∀ (fuel q : Nat), cn.parent_id = some q →
            bpOk s1.tree fuel q := by
          intro fuel q hq
          rw [hcp] at hq
          injection hq with hq
          subst hq
          cases fuel with
          | zero => trivial
          | succ f =>
            obtain ⟨p', hp', e1, e2, e3, _, _⟩ := hstable (sel s) n hn
            refine ⟨p', hp', by rw [e1]; exact hc, ?_⟩
            intro r hr
            rw [e3] at hr
            exact bpOk_mono (oldStable_treeLe hstable) f r (hanc f r hr)
        obtain ⟨hI2, _, hothers, _⟩ := inv_evalAndBp hI1 hcn hcnc hanc1
        refine ⟨hI2, ?_⟩
        intro i m hm
        have hilt : i < s.tree.length := (List.getElem?_eq_some.mp hm).1
        have hine : i ≠ c := by omega
        obtain ⟨m', hm', e1, e2, _, _, _⟩ := hstable i m hm
        obtain ⟨m'', hm'', f1, f2, _, _, _⟩ := hothers i m' hine hm'
        refine ⟨m'', hm'', ?_, ?_⟩
        · rw [f1, e1]
          exact statusLe_refl _
        · intro x hx
          rw [f2, e2]
          exact hx
    · rw [stepCore_leaf hn hc hex]
      have hok : bpOk s.tree (n.depth + 1) (sel s) :=
        ⟨n, hn, hc, fun q hq => hanc n.depth q hq⟩
      obtain ⟨hI2, hsk⟩ := inv_backstep (n.depth + 1) s (sel s)
        (n.evaluation_score.getD fallbackMid) hI hok
      refine ⟨hI2, ?_⟩
      intro i m hm
      obtain ⟨m', hm', _, _, _, _, e5, e6, _⟩ := hsk i m hm
      refine ⟨m', hm', ?_, ?_⟩
      · rw [e5]
        exact statusLe_refl _
      · intro x hx
        rw [e6]
        exact hx
  · rw [stepCore_eval hn hc]
    obtain ⟨hI2, hself, hothers, _⟩ := inv_evalAndBp hI hn hc hanc
    refine ⟨hI2, ?_⟩
    intro i m hm
    by_cases hi : i = sel s
    · subst hi
      have hmn : m = n := by
        have h2 := hm
        rw [hn] at h2
        exact (Option.some.inj h2).symm
      subst hmn
      obtain ⟨n', hn', f1, _⟩ := hself
      refine ⟨n', hn', ?_, ?_⟩
      · rw [f1]
        exact statusLe_complete_right _
      · intro x hx
        exfalso
        apply hc
        exact (hI.scoreIff m (mem_of_lookup hm)).mp (by rw [hx]; rfl)
    · obtain ⟨m', hm', f1, f2, _, _, _⟩ := hothers i m hi hm
      refine ⟨m', hm', ?_, ?_⟩
      · rw [f1]
        exact statusLe_refl _
      · intro x hx
        rw [f2]
        exact hx

/-! ## Run-level lemmas -/

theorem inv_runStep {cfg : SearchConfig} {oracle : Oracle}
    {sel : EngineState → Nat} {s : EngineState} (hsel : GoodSel sel)
    (hI : EngInv s.tree s.trace) :
    EngInv (runStep cfg oracle sel s).tree (runStep cfg oracle sel s).trace :=
  (stepCore_props hsel hI).1

theorem mono_runStep {cfg : SearchConfig} {oracle : Oracle}
    {sel : EngineState → Nat} {s : EngineState} (hsel : GoodSel sel)
    (hI : EngInv s.tree s.trace) :
    monoStep s.tree (runStep cfg oracle sel s).tree :=
  (stepCore_props hsel hI).2

theorem inv_runSearch {cfg : SearchConfig} {oracle : Oracle}
    {sel : EngineState → Nat} (hsel : GoodSel sel) :
    ∀ (budget : Nat) (s : EngineState), EngInv s.tree s.trace →
    EngInv (runSearch cfg oracle sel budget s).tree
      (runSearch cfg oracle sel budget s).trace := by
  intro budget
  induction budget with
  | zero => intro s hI; exact hI
  | succ b ih =>
    intro s hI
    exact ih (runStep cfg oracle sel s) (inv_runStep hsel hI)

theorem mono_runSearch {cfg : SearchConfig} {oracle : Oracle}
    {sel : EngineState → Nat} (hsel : GoodSel sel) :
    ∀ (budget : Nat) (s : EngineState), EngInv s.tree s.trace →
    monoStep s.tree (runSearch cfg oracle sel budget s).tree := by
  intro budget
  induction budget with
  | zero => intro s _; exact monoStep_refl _
  | succ b ih =>
    intro s hI
    exact monoStep_trans (mono_runStep hsel hI)
      (ih (runStep cfg oracle sel s) (inv_runStep hsel hI))

theorem runSearch_iters (cfg : SearchConfig) (oracle : Oracle)
    (sel : EngineState → Nat) :
    ∀ (budget : Nat) (s : EngineState),
    (runSearch cfg oracle sel budget s).iters = s.iters + budget := by
  intro budget
  induction budget with
  | zero => intro s; rfl
  | succ b ih =>
    intro s
    show (runSearch cfg oracle sel b (runStep cfg oracle sel s)).iters =
      s.iters + (b + 1)
    rw [ih]
    show s.iters + 1 + b = s.iters + (b + 1)
    omega

/-- The always-select-the-root selector satisfies the selection guarantee. -/
theorem goodSel_root : GoodSel (fun _ => 0) := by
  intro s hI
  have h0 : 0 < s.tree.length := List.length_pos.mpr hI.nonempty
  obtain ⟨n, hn⟩ : ∃ n : ENode, s.tree[0]? = some n := lookup_exists h0
  refine ⟨n, hn, ?_⟩
  intro fuel q hq
  have hid : n.node_id = 0 := idsSeq_nodeId hI.ids hn
  have hnone : n.parent_id = none := (hI.rootPar n (mem_of_lookup hn)).mpr hid
  rw [hnone] at hq
  exact Option.noConfusion hq

/-! ## The neutral-fallback invariant under an always-failing oracle -/

/-- Every `complete` node carries the neutral fallback score. -/
def HalfInv (t : List ENode) : Prop :=
  ∀ n ∈ t, n.status = .complete → n.evaluation_score = some fallbackMid

theorem evalScore_fail {oracle : Oracle} {st : List String}
    (h : ∀ state : List String, ∃ e : OracleError,
      oracle.evaluate state = .error e) :
    evalScore oracle st = fallbackMid := by
  obtain ⟨e, he⟩ := h st
  unfold evalScore
  rw [he]

theorem halfInv_mapById_complete {t : List ENode} (h : HalfInv t) (v : Nat) :
    HalfInv (mapById t v (completeWith fallbackMid)) := by
  intro n' hmem hc
  obtain ⟨m, hm, he⟩ := mapById_mem hmem
  subst he
  by_cases hmv : m.node_id = v
  · rw [if_pos hmv]
    rfl
  · rw [if_neg hmv] at hc ⊢
    exact h m hm hc

theorem halfInv_mapById_bp {t : List ENode} (h : HalfInv t) (v : Nat)
    (score : Rat) : HalfInv (mapById t v (bpUpdate score)) := by
  intro n' hmem hc
  obtain ⟨m, hm, he⟩ := mapById_mem hmem
  subst he
  by_cases hmv : m.node_id = v
  · rw [if_pos hmv] at hc ⊢
    exact h m hm hc
  · rw [if_neg hmv] at hc ⊢
    exact h m hm hc

theorem halfInv_backstep :
    ∀ (fuel : Nat) (s : EngineState) (nid : Nat) (score : Rat),
    HalfInv s.tree → HalfInv (backstep fuel s nid score).tree := by
  intro fuel
  induction fuel with
  | zero => intro s nid score h; exact h
  | succ f ih =>
    intro s nid score h
    rcases hn : s.tree[nid]? with _ | n
    · simp only [backstep, hn]
      exact h
    · rw [backstep_succ_some hn]
      cases n.parent_id with
      | none => exact halfInv_mapById_bp h nid score
      | some pid =>
        exact ih _ pid score (halfInv_mapById_bp h nid score)

theorem halfInv_addChild {t : List ENode} (h : HalfInv t) (pid : Nat)
    (action : String) : HalfInv (addChildE t pid action).1 := by
  rcases hp : t[pid]? with _ | p
  · simp only [addChildE, hp]
    exact h
  · rw [addChild_eq hp]
    intro n' hmem hc
    rcases newTree_mem_cases hmem with ⟨m, hm, he⟩ | he
    · subst he
      by_cases hmv : m.node_id = pid
      · rw [if_pos hmv] at hc ⊢
        exact h m hm hc
      · rw [if_neg hmv] at hc ⊢
        exact h m hm hc
    · subst he
      exact absurd hc (by simp [mkChild])

theorem halfInv_expandAll :
    ∀ (acts : List String) (s : EngineState) (pid : Nat),
    HalfInv s.tree → HalfInv (expandAll s pid acts).1.tree := by
  intro acts
  induction acts with
  | nil => intro s pid h; exact h
  | cons a rest ih =>
    intro s pid h
    show HalfInv (expandAll s pid (a :: rest)).1.tree
    have hstep : HalfInv (addChildE s.tree pid a).1 := halfInv_addChild h pid a
    rcases hE : addChildE s.tree pid a with ⟨t', cid⟩
    have hstep' : HalfInv t' := by
      rw [hE] at hstep
      exact hstep
    simp only [expandAll, hE]
    exact ih _ pid hstep'

theorem halfInv_evalAndBp {oracle : Oracle} {s : EngineState} {nid : Nat}
    (hfail : ∀ state : List String, ∃ e : OracleError,
      oracle.evaluate state = .error e)
    (h : HalfInv s.tree) : HalfInv (evalAndBp oracle s nid).tree := by
  rcases hn : s.tree[nid]? with _ | n
  · simp only [evalAndBp, hn]
    exact h
  · rw [evalAndBp_some hn, evalScore_fail hfail]
    exact halfInv_backstep _ _ nid _ (halfInv_mapById_complete h nid)

theorem halfInv_runStep {cfg : SearchConfig} {oracle : Oracle}
    {sel : EngineState → Nat} {s : EngineState}
    (hfail : ∀ state : List String, ∃ e : OracleError,
      oracle.evaluate state = .error e)
    (h : HalfInv s.tree) : HalfInv (runStep cfg oracle sel s).tree := by
  show HalfInv (stepCore cfg oracle sel s).tree
  rcases hn : s.tree[sel s]? with _ | n
  · simp only [stepCore, hn]
    exact h
  · by_cases hc : n.status = .complete
    · by_cases hex : n.depth < cfg.maxDepth ∧ n.children_ids.length < cfg.branching
      · rcases hE : expandAll s (sel s) (genActions oracle cfg n) with ⟨s1, newIds⟩
        rw [stepCore_expand hn hc hex hE]
        have h1 : HalfInv s1.tree := by
          have := halfInv_expandAll (genActions oracle cfg n) s (sel s) h
          rw [hE] at this
          exact this
        cases newIds with
        | nil => exact h1
        | cons c restIds => exact halfInv_evalAndBp hfail h1
      · rw [stepCore_leaf hn hc hex]
        exact halfInv_backstep _ _ _ _ h
    · rw [stepCore_eval hn hc]
      exact halfInv_evalAndBp hfail h

theorem halfInv_runSearch {cfg : SearchConfig} {oracle : Oracle}
    {sel : EngineState → Nat}
    (hfail : ∀ state : List String, ∃ e : OracleError,
      oracle.evaluate state = .error e) :
    ∀ (budget : Nat) (s : EngineState),
    HalfInv s.tree → HalfInv (runSearch cfg oracle sel budget s).tree := by
  intro budget
  induction budget with
  | zero => intro s h; exact h
  | succ b ih =>
    intro s h
    exact ih (runStep cfg oracle sel s) (halfInv_runStep hfail h)

/-! ## Client map lemmas for `updateNode` -/

theorem find?_set_map_hit (m : NodeMap) (k : String) (v : MCTSNode)
    (h : (List.find? (fun p => p.1 = k) m).isSome) :
    List.find? (fun p => p.1 = k)
      (List.map (fun p => if p.1 = k then (k, v) else p) m) = some (k, v) := by
  induction m with
  | nil => simp at h
  | cons a m' ih =>
    by_cases ha : a.1 = k
    · simp only [List.map_cons, if_pos ha]
      exact List.find?_cons_of_pos _ (by simp)
    · simp only [List.map_cons, if_neg ha]
      rw [List.find?_cons_of_neg _ (by simp [ha])]
      refine ih ?_
      rw [List.find?_cons_of_neg _ (by simp [ha])] at h
      exact h

theorem find?_set_map_other (m : NodeMap) {k k' : String} (h : k' ≠ k)
    (v : MCTSNode) :
    List.find? (fun p => p.1 = k')
      (List.map (fun p => if p.1 = k then (k, v) else p) m) =
      List.find? (fun p => p.1 = k') m := by
  induction m with
  | nil => rfl
  | cons a m' ih =>
    by_cases ha : a.1 = k
    · simp only [List.map_cons, if_pos ha]
      rw [List.find?_cons_of_neg _ (by simp [Ne.symm h]),
        List.find?_cons_of_neg _ (by simp [ha, Ne.symm h]), ih]
    · simp only [List.map_cons, if_neg ha]
      by_cases ha' : a.1 = k'
      · rw [List.find?_cons_of_pos _ (by simp [ha']),
          List.find?_cons_of_pos _ (by simp [ha'])]
      · rw [List.find?_cons_of_neg _ (by simp [ha']),
          List.find?_cons_of_neg _ (by simp [ha']), ih]

theorem NodeMap.find_set_self (m : NodeMap) (k : String) (v : MCTSNode) :
    (NodeMap.set m k v).find k = some v := by
  unfold NodeMap.set NodeMap.find
  split
  case isTrue h =>
    rw [find?_set_map_hit m k v h]
    rfl
  case isFalse h =>
    rw [List.find?_append, Option.not_isSome_iff_eq_none.mp h]
    simp

theorem NodeMap.find_set_other (m : NodeMap) {k k' : String} (h : k' ≠ k)
    (v : MCTSNode) : (NodeMap.set m k v).find k' = m.find k' := by
  unfold NodeMap.set NodeMap.find
  split
  case isTrue _ =>
    rw [find?_set_map_other m h v]
  case isFalse _ =>
    rw [List.find?_append]
    have h2 : List.find? (fun p => p.1 = k') [(k, v)] = none := by
      rw [List.find?_cons_of_neg _ (by simp [Ne.symm h])]
      rfl
    rw [h2, Option.or_none]

/-- The `evaluation_score` stored for a node by `updateNode`: the `??` chain
of line 93, unchanged by the possible parent-children update that follows. -/
theorem updateNode_score (m : NodeMap) (node : MCTSNode) :
    ((updateNode m node).find node.node_id).map MCTSNode.evaluation_score =
      some (node.evaluation_score.orElse
        fun _ => (m.find node.node_id).bind MCTSNode.evaluation_score) := by
  rcases hpar : node.parent_id with _ | pid
  · simp only [updateNode, hpar]
    rw [NodeMap.find_set_self]
    rfl
  · simp only [updateNode, hpar]
    split
    · rw [NodeMap.find_set_self]
      rfl
    · rename_i parent hf2
      by_cases hpid : node.node_id = pid
      · subst hpid
        rw [NodeMap.find_set_self] at hf2
        rw [NodeMap.find_set_self, ← Option.some.inj hf2]
        rfl
      · rw [NodeMap.find_set_other _ (fun hh => hpid hh) _, NodeMap.find_set_self]
        rfl

/-- Line 93's preservation at the claim level: a previously seen score
survives an update that carries `null`. -/
theorem updateNode_preserves_score (m : NodeMap) (node old : MCTSNode) (x : Rat)
    (hfind : m.find node.node_id = some old)
    (hold : old.evaluation_score = some x)
    (hnew : node.evaluation_score = none) :
    ((updateNode m node).find node.node_id).bind MCTSNode.evaluation_score =
      some x := by
  have h := updateNode_score m node
  rcases hres : (updateNode m node).find node.node_id with _ | r
  · rw [hres] at h
    exact Option.noConfusion h
  · rw [hres, Option.map_some'] at h
    have h2 := Option.some.inj h
    show r.evaluation_score = some x
    rw [h2, hnew, hfind]
    simp [hold]

/-! ## Claim C2 -/

/-- C2: for every node whose evaluation fails at the oracle — including an
oracle that always raises `OracleMalformed` on `evaluate_state` — the node is
still marked `status = complete` with `evaluation_score` equal to the
midpoint of the valid range (`fallbackMid = 1/2`); under an always-failing
oracle every `complete` node of the whole run carries the midpoint; and the
search terminates within its iteration budget rather than hanging. -/
theorem claim_C2_fallback_and_budget :
    (∀ (oracle : Oracle) (s : EngineState) (nid : Nat) (n : ENode)
        (e : OracleError),
      EngInv s.tree s.trace → s.tree[nid]? = some n → n.status ≠ .complete →
      (∀ (fuel q : Nat), n.parent_id = some q → bpOk s.tree fuel q) →
      oracle.evaluate n.state = .error e →
      ∃ n' : ENode, (evalAndBp oracle s nid).tree[nid]? = some n' ∧
        n'.status = .complete ∧ n'.evaluation_score = some fallbackMid) ∧
    (∀ (cfg : SearchConfig) (oracle : Oracle) (sel : EngineState → Nat)
        (budget : Nat) (state : List String),
      (∀ st : List String, ∃ e : OracleError, oracle.evaluate st = .error e) →
      HalfInv (runSearch cfg oracle sel budget (initEngine state)).tree) ∧
    (∀ (cfg : SearchConfig) (oracle : Oracle) (sel : EngineState → Nat)
        (budget : Nat) (s : EngineState),
      (runSearch cfg oracle sel budget s).iters ≤ s.iters + budget) := by
  refine ⟨?_, ?_, ?_⟩
  · intro oracle s nid n e hI hn hnc hanc hfail
    obtain ⟨_, ⟨n', hn', hst, hsc⟩, _, _⟩ := @inv_evalAndBp oracle s nid n hI hn hnc hanc
    refine ⟨n', hn', hst, ?_⟩
    rw [hsc]
    unfold evalScore
    rw [hfail]
  · intro cfg oracle sel budget state hfail
    refine halfInv_runSearch hfail budget _ ?_
    intro m hm hc
    simp only [initEngine, List.mem_singleton] at hm
    subst hm
    exact absurd hc (by simp [rootNode])
  · intro cfg oracle sel budget s
    rw [runSearch_iters]

/-- A deterministic oracle that always fails evaluation with
`OracleMalformed` (the §8 scenario). -/
def malformedOracle : Oracle :=
  { generate := fun _ => .ok ["offer A", "offer B"]
    evaluate := fun _ => .error .malformed }

theorem claim_C2_witness :
    (∃ n' : ENode,
      (evalAndBp malformedOracle (initEngine ["Hi"]) 0).tree[0]? = some n' ∧
        n'.status = .complete ∧ n'.evaluation_score = some fallbackMid) ∧
    HalfInv (runSearch ⟨2, 2⟩ malformedOracle (fun _ => 0) 3
      (initEngine ["Hi"])).tree ∧
    (runSearch ⟨2, 2⟩ malformedOracle (fun _ => 0) 3
      (initEngine ["Hi"])).iters ≤ (initEngine ["Hi"]).iters + 3 :=
  ⟨claim_C2_fallback_and_budget.1 malformedOracle (initEngine ["Hi"]) 0
      (rootNode ["Hi"]) .malformed (inv_init ["Hi"]) rfl (by decide)
      (fun _ q hq => absurd hq (by simp [rootNode])) rfl,
    claim_C2_fallback_and_budget.2.1 ⟨2, 2⟩ malformedOracle (fun _ => 0) 3
      ["Hi"] (fun _ => ⟨.malformed, rfl⟩),
    claim_C2_fallback_and_budget.2.2 ⟨2, 2⟩ malformedOracle (fun _ => 0) 3
      (initEngine ["Hi"])⟩

/-! ## Claim C4 -/

/-- C4: in every reachable search tree, `depth(child) = depth(parent) + 1`;
`children_ids` and `parent_id` are mutually consistent (a node's id appears
in its parent's `children_ids` iff the node's `parent_id` names that
parent); and exactly one node — the root — has an empty `parent_id`. -/
theorem claim_C4_tree_invariants (cfg : SearchConfig) (oracle : Oracle)
    (sel : EngineState → Nat) (budget : Nat) (state : List String)
    (hsel : GoodSel sel) :
    (∀ n ∈ (runSearch cfg oracle sel budget (initEngine state)).tree,
      ∀ p : Nat, n.parent_id = some p →
      ∃ pn, (runSearch cfg oracle sel budget (initEngine state)).tree[p]? =
        some pn ∧ n.depth = pn.depth + 1) ∧
    (∀ p ∈ (runSearch cfg oracle sel budget (initEngine state)).tree,
      ∀ cn ∈ (runSearch cfg oracle sel budget (initEngine state)).tree,
      (cn.node_id ∈ p.children_ids ↔ cn.parent_id = some p.node_id)) ∧
    ((runSearch cfg oracle sel budget (initEngine state)).tree.filter
      (fun n => n.parent_id.isNone)).length = 1 := by
  have hI := @inv_runSearch cfg oracle sel hsel budget (initEngine state)
    (inv_init state)
  refine ⟨hI.parDepth, ?_, ?_⟩
  · intro p hp cn hcn
    constructor
    · intro hmem
      obtain ⟨cn', hcn', hcp⟩ := hI.childMem p hp cn.node_id hmem
      have h2 := idsSeq_lookup_of_mem hI.ids hcn
      rw [h2] at hcn'
      rw [Option.some.inj hcn']
      exact hcp
    · intro hpar
      obtain ⟨pn, hpn, hcm⟩ := hI.parChild cn hcn p.node_id hpar
      have h2 := idsSeq_lookup_of_mem hI.ids hp
      rw [h2] at hpn
      rw [Option.some.inj hpn]
      exact hcm
  · have hcongr : ∀ n ∈ (runSearch cfg oracle sel budget (initEngine state)).tree,
        (n.parent_id.isNone) = (n.node_id == 0) := by
      intro n hn
      by_cases h0 : n.node_id = 0
      · rw [Option.isNone_iff_eq_none.mpr ((hI.rootPar n hn).mpr h0)]
        simp [h0]
      · have h1 : n.parent_id ≠ none := fun hh => h0 ((hI.rootPar n hn).mp hh)
        rcases hpp : n.parent_id with _ | q
        · exact absurd hpp h1
        · simp [h0]
    rw [List.filter_congr hcongr, ← List.countP_eq_length_filter]
    have hmapped : List.countP (fun n : ENode => n.node_id == 0)
        (runSearch cfg oracle sel budget (initEngine state)).tree =
        List.countP (fun i : Nat => i == 0)
          ((runSearch cfg oracle sel budget (initEngine state)).tree.map
            ENode.node_id) := by
      rw [List.countP_map]
      rfl
    rw [hmapped, hI.ids]
    have hlen : 0 < (runSearch cfg oracle sel budget (initEngine state)).tree.length :=
      List.length_pos.mpr hI.nonempty
    obtain ⟨k, hk⟩ := Nat.exists_eq_succ_of_ne_zero (Nat.pos_iff_ne_zero.mp hlen)
    rw [hk, List.range_succ_eq_map, List.countP_cons]
    have hz : List.countP (fun i : Nat => i == 0)
        ((List.range k).map Nat.succ) = 0 := by
      rw [List.countP_eq_zero]
      intro a ha
      obtain ⟨j, _, hj⟩ := List.mem_map.mp ha
      simp [← hj]
    rw [hz]
    simp

/-- A deterministic benign oracle for witnesses. -/
def okOracle : Oracle :=
  { generate := fun st => .ok ["offer A" ++ toString st.length]
    evaluate := fun st => .ok ((st.length : Rat) / 10) }

theorem claim_C4_witness :
    (∀ n ∈ (runSearch ⟨2, 2⟩ okOracle (fun _ => 0) 2 (initEngine ["Hi"])).tree,
      ∀ p : Nat, n.parent_id = some p →
      ∃ pn, (runSearch ⟨2, 2⟩ okOracle (fun _ => 0) 2 (initEngine ["Hi"])).tree[p]? =
        some pn ∧ n.depth = pn.depth + 1) ∧
    (∀ p ∈ (runSearch ⟨2, 2⟩ okOracle (fun _ => 0) 2 (initEngine ["Hi"])).tree,
      ∀ cn ∈ (runSearch ⟨2, 2⟩ okOracle (fun _ => 0) 2 (initEngine ["Hi"])).tree,
      (cn.node_id ∈ p.children_ids ↔ cn.parent_id = some p.node_id)) ∧
    ((runSearch ⟨2, 2⟩ okOracle (fun _ => 0) 2 (initEngine ["Hi"])).tree.filter
      (fun n => n.parent_id.isNone)).length = 1 :=
  claim_C4_tree_invariants ⟨2, 2⟩ okOracle (fun _ => 0) 2 ["Hi"] goodSel_root

/-! ## Claim C7 -/

/-- C7: for every node, the events concerning that node are delivered in the
order `expansion`, then `evaluation (status=evaluating)`, then
`evaluation (status=complete)`, then `backprop` (`NodeShape` of the node's
filtered trace: an optional expansion first, then the optional
evaluating/complete pair, then backprops only — backprops only after
completion); and for every parent-child pair the parent's expansion event is
delivered before the child's expansion event (the root itself has no
expansion event, so the guarantee binds for every parent that has one). -/
theorem claim_C7_event_ordering (cfg : SearchConfig) (oracle : Oracle)
    (sel : EngineState → Nat) (budget : Nat) (state : List String)
    (hsel : GoodSel sel) :
    (∀ v : Nat, NodeShape (evsFor v
      (runSearch cfg oracle sel budget (initEngine state)).trace)) ∧
    (∀ cn ∈ (runSearch cfg oracle sel budget (initEngine state)).tree,
      ∀ (p : Nat) (pn : ENode), cn.parent_id = some p →
      (runSearch cfg oracle sel budget (initEngine state)).tree[p]? = some pn →
      pn.parent_id.isSome →
      precedes ⟨.expansion, p⟩ ⟨.expansion, cn.node_id⟩
        (runSearch cfg oracle sel budget (initEngine state)).trace) := by
  have hI := @inv_runSearch cfg oracle sel hsel budget (initEngine state)
    (inv_init state)
  exact ⟨hI.shape, hI.parentFirst⟩

theorem claim_C7_witness :
    (∀ v : Nat, NodeShape (evsFor v
      (runSearch ⟨2, 2⟩ okOracle (fun _ => 0) 2 (initEngine ["Hi"])).trace)) ∧
    (∀ cn ∈ (runSearch ⟨2, 2⟩ okOracle (fun _ => 0) 2 (initEngine ["Hi"])).tree,
      ∀ (p : Nat) (pn : ENode), cn.parent_id = some p →
      (runSearch ⟨2, 2⟩ okOracle (fun _ => 0) 2 (initEngine ["Hi"])).tree[p]? =
        some pn →
      pn.parent_id.isSome →
      precedes ⟨.expansion, p⟩ ⟨.expansion, cn.node_id⟩
        (runSearch ⟨2, 2⟩ okOracle (fun _ => 0) 2 (initEngine ["Hi"])).trace) :=
  claim_C7_event_ordering ⟨2, 2⟩ okOracle (fun _ => 0) 2 ["Hi"] goodSel_root

/-! ## Claim C8 -/

/-- C8: node status is monotone over a node's lifetime — once a node has
reached `complete` it never later appears as `exploring` or `evaluating`
(`statusLe` over any continuation of a run) — and `evaluation_score` is set
exactly at the transition to `complete` (present iff `complete`) and never
reset afterwards; on the client side, `updateNode` preserves a previously
seen score when an update carries `null`. -/
theorem claim_C8_status_monotone :
    (∀ (cfg : SearchConfig) (oracle : Oracle) (sel : EngineState → Nat)
        (b1 b2 : Nat) (state : List String) (v : Nat) (n : ENode),
      GoodSel sel →
      (runSearch cfg oracle sel b1 (initEngine state)).tree[v]? = some n →
      ∃ n' : ENode,
        (runSearch cfg oracle sel b2
          (runSearch cfg oracle sel b1 (initEngine state))).tree[v]? = some n' ∧
        statusLe n.status n'.status ∧
        (n.status = .complete → n'.status = .complete) ∧
        (∀ x : Rat, n.evaluation_score = some x → n'.evaluation_score = some x) ∧
        (n.evaluation_score.isSome ↔ n.status = .complete)) ∧
    (∀ (m : NodeMap) (node old : MCTSNode) (x : Rat),
      m.find node.node_id = some old → old.evaluation_score = some x →
      node.evaluation_score = none →
      ((updateNode m node).find node.node_id).bind MCTSNode.evaluation_score =
        some x) := by
  constructor
  · intro cfg oracle sel b1 b2 state v n hsel hn
    have hI1 := @inv_runSearch cfg oracle sel hsel b1 (initEngine state)
      (inv_init state)
    have hmono := @mono_runSearch cfg oracle sel hsel b2
      (runSearch cfg oracle sel b1 (initEngine state)) hI1
    obtain ⟨n', hn', hle, hsc⟩ := hmono v n hn
    refine ⟨n', hn', hle, ?_, hsc, hI1.scoreIff n (mem_of_lookup hn)⟩
    intro hc
    rw [hc] at hle
    exact statusLe_complete_left hle
  · exact updateNode_preserves_score

/-- A concrete `MCTSNode` pair for the client-side half of the witness. -/
def exClientOld : MCTSNode :=
  { node_id := "n1", parent_id := some "n0", state := "Hi", visits := 2
    value := 1, action_taken := some "a", status := .complete
    evaluation_score := some (3 / 4), depth := 1, children_ids := [] }

def exClientUpdate : MCTSNode :=
  { exClientOld with evaluation_score := none, visits := 3 }

theorem claim_C8_witness :
    (∃ n' : ENode,
      (runSearch ⟨2, 2⟩ okOracle (fun _ => 0) 1
        (runSearch ⟨2, 2⟩ okOracle (fun _ => 0) 0 (initEngine ["Hi"]))).tree[0]? =
          some n' ∧
      statusLe (rootNode ["Hi"]).status n'.status ∧
      ((rootNode ["Hi"]).status = .complete → n'.status = .complete) ∧
      (∀ x : Rat, (rootNode ["Hi"]).evaluation_score = some x →
        n'.evaluation_score = some x) ∧
      ((rootNode ["Hi"]).evaluation_score.isSome ↔
        (rootNode ["Hi"]).status = .complete)) ∧
    ((updateNode [("n1", exClientOld)] exClientUpdate).find "n1").bind
      MCTSNode.evaluation_score = some (3 / 4) :=
  ⟨claim_C8_status_monotone.1 ⟨2, 2⟩ okOracle (fun _ => 0) 0 1 ["Hi"] 0
      (rootNode ["Hi"]) goodSel_root rfl,
    claim_C8_status_monotone.2 [("n1", exClientOld)] exClientUpdate exClientOld
      (3 / 4) rfl rfl rfl⟩
